import Mathlib

/-! Verification development for BLAS++ (`blaspp`).

Shallow embedding of

* `test/test_schur_gemm.cc` : the tile geometry, the pointer-array build loop and the
  batched / single-call comparison of the Schur-complement style gemm test;
* `include/geru.hh` : the generic `geru` template and the complex overloads;
* `include/syrk.hh` : the precision overloads of `syrk` and the generic template.

Conventions of the embedding.

* `int64_t` values are `Int`.  Signed overflow is undefined behaviour in C++ and none of the
  index computations modelled here can overflow while the buffers they address exist, so
  the arithmetic is the mathematical one; conversions to a narrower native integer are
  modelled with an explicit wrap where they occur.
* A device or host pointer is an element address, an `Int`; `&p[e]` is `p + e`.
* A buffer is a function `Int → R` from element index to value; "exact arithmetic" is a
  commutative ring `R`.
* `std::vector` is `Array`, `push_back` is `Array.push`.
* A `for (int64_t i = 0; i < n; ++i)` loop is `forLoop n body`.
-/

namespace blas

/-! ## Loops -/

/-- The loop `for (int64_t i = 0; i < n; ++i) s = body(i, s);`: the body runs for
`i = 0, 1, ..., n-1` in this order, and not at all when `n ≤ 0`. -/
def forLoop {σ : Type} (n : Int) (body : Int → σ → σ) (s : σ) : σ :=
  (List.range n.toNat).foldl (fun (s : σ) (i : Nat) => body (i : Int) s) s

/-! ## `test_schur_gemm_work`: pointer arrays -/

/-- The three host-side pointer arrays `dAarray`, `dBarray`, `dCarray` of the test. -/
structure PtrArrays where
  dAarray : Array Int
  dBarray : Array Int
  dCarray : Array Int
deriving DecidableEq

/-- The declarations `std::vector<TA*> dAarray; ...` (lines 92-94): three empty vectors. -/
def PtrArrays.empty : PtrArrays := ⟨#[], #[], #[]⟩

/-- The element offset of the C tile `(i, j)` in `dC` (line 132). -/
def tileOffsetC (k_ ldc_ i j : Int) : Int := i * k_ + j * k_ * ldc_

/-- The element offset of the A tile of block row `i` in `dA` (line 130). -/
def tileOffsetA (k_ i : Int) : Int := i * k_

/-- The element offset of the B tile of block column `j` in `dB` (line 131). -/
def tileOffsetB (k_ ldb_ j : Int) : Int := j * k_ * ldb_

/-- Body of the inner loop (lines 130-132): the three `push_back`s for tile `(i, j)`,
`&dA[ i * k_ ]`, `&dB[ j * k_ * ldb_ ]` and `&dC[ i * k_ + j * k_ * ldc_ ]`. -/
def pushTile (k_ ldb_ ldc_ dA dB dC : Int) (j i : Int) (s : PtrArrays) : PtrArrays :=
  { dAarray := s.dAarray.push (dA + tileOffsetA k_ i),
    dBarray := s.dBarray.push (dB + tileOffsetB k_ ldb_ j),
    dCarray := s.dCarray.push (dC + tileOffsetC k_ ldc_ i j) }

/-- The build loop of lines 128-134: outer loop over `j < nt`, inner loop over `i < mt`. -/
def buildPtrArrays (mt nt k_ ldb_ ldc_ dA dB dC : Int) (s : PtrArrays) : PtrArrays :=
  forLoop nt (fun j s => forLoop mt (fun i s => pushTile k_ ldb_ ldc_ dA dB dC j i s) s) s

/-! ## Enumerations of `blas_util.hh`

The scoped enumerations are declared over `char`; an object of such a type can hold a value
that is none of the enumerators, which is what the argument checks
`layout != Layout::ColMajor && layout != Layout::RowMajor` guard against.  The constructor
`Illegal` stands for any such value. -/

/-- Matrix storage `blas::Layout`. -/
inductive Layout where
  | ColMajor
  | RowMajor
  | Illegal
deriving DecidableEq

/-- Transposition flag `blas::Op`. -/
inductive Op where
  | NoTrans
  | Trans
  | ConjTrans
  | Illegal
deriving DecidableEq

/-- Triangle selector `blas::Uplo`. -/
inductive Uplo where
  | Upper
  | Lower
  | Illegal
deriving DecidableEq

/-! ## Binary floating point

Finite binary floating-point values with a `p`-bit significand and round-to-nearest,
ties-to-even (the IEEE 754 default): `p = 24` is `float`, `p = 53` is `double`.  The exponent
range is not modelled: the values that occur in the test are quotients and products of
64-bit integers, far from the overflow and underflow thresholds of either format. -/

/-- The finite floating-point value `mant * 2^exp`. -/
structure Flt where
  mant : Int
  exp : Int
deriving DecidableEq

/-- Number of binary digits of `n` (`0` for `n = 0`); the first argument bounds the
recursion and is taken to be `n` itself. -/
def bitLen : Nat → Nat → Nat
  | 0, _ => 0
  | fuel + 1, n => if n = 0 then 0 else bitLen fuel (n / 2) + 1

/-- The integer nearest to `num / den`, ties to the even one (`den > 0`). -/
def roundHalfEven (num den : Nat) : Nat :=
  if 2 * (num % den) < den then num / den
  else if den < 2 * (num % den) then num / den + 1
  else if (num / den) % 2 = 0 then num / den
  else num / den + 1

/-- The rational `num / den` (`den > 0`) rounded to the nearest value with a `p`-bit
significand, ties to even.  For `num ≠ 0` the exponent `e` is chosen so that
`2^(p-1) ≤ |num/den| / 2^e < 2^p`, and the significand is `|num/den| / 2^e` rounded to an
integer. -/
def roundRat (p : Nat) (num : Int) (den : Nat) : Flt :=
  if num = 0 then ⟨0, 0⟩
  else
    let n := num.natAbs
    let a : Int := bitLen n n
    let b : Int := bitLen den den
    let lg : Int := if den * 2 ^ (a - b).toNat ≤ n * 2 ^ (b - a).toNat then a - b else a - b - 1
    let e : Int := lg - ((p : Int) - 1)
    ⟨num.sign * (roundHalfEven (n * 2 ^ (-e).toNat) (den * 2 ^ e.toNat) : Nat), e⟩

/-- Conversion `(float)z` / `(double)z` of an integer. -/
def Flt.ofInt (p : Nat) (z : Int) : Flt := roundRat p z 1

/-- Floating-point division `x / y` in precision `p`; `none` when `y` is zero (the result is
then an infinity or a NaN, not a finite value). -/
def Flt.div (p : Nat) (x y : Flt) : Option Flt :=
  if y.mant = 0 then none
  else some (roundRat p (x.mant * y.mant.sign * 2 ^ (x.exp - y.exp).toNat)
    (y.mant.natAbs * 2 ^ (y.exp - x.exp).toNat))

/-- The function `floor`: the largest integral value not above `x` (exact). -/
def Flt.floor (x : Flt) : Flt :=
  if 0 ≤ x.exp then x else ⟨x.mant / 2 ^ (-x.exp).toNat, 0⟩

/-- Floating-point multiplication `x * y` in precision `p`. -/
def Flt.mul (p : Nat) (x y : Flt) : Flt :=
  ⟨(roundRat p (x.mant * y.mant) 1).mant, (roundRat p (x.mant * y.mant) 1).exp + x.exp + y.exp⟩

/-- Conversion of a floating-point value to `int64_t` (truncation toward zero). -/
def Flt.toInt (x : Flt) : Int :=
  if 0 ≤ x.exp then x.mant * 2 ^ x.exp.toNat else Int.tdiv x.mant (2 ^ (-x.exp).toNat)

/-- The rational value `mant * 2^exp` of a floating-point number. -/
def Flt.val (f : Flt) : ℚ := (f.mant : ℚ) * (2 : ℚ) ^ f.exp

/-! ## `test_schur_gemm_work`: tile geometry -/

/-- The rounding step of lines 50-51, `m_ = floor( (float)m_/k_ ) * k_;`.

`(float)m_` converts to `float`; in `(float)m_/k_` the divisor is converted to `float` and the
division is a `float` division.  `prec` is the precision in which `floor` returns and in
which the product with `k_` is formed: `24` when the call resolves to the `float` overload
of `floor`, `53` when it resolves to `double floor(double)`.  The product is converted
back to `int64_t` by the assignment.  The result is `none` when `k_ = 0`. -/
def roundToTile (prec : Nat) (m_ k_ : Int) : Option Int :=
  (Flt.div 24 (Flt.ofInt 24 m_) (Flt.ofInt 24 k_)).map
    (fun q => Flt.toInt (Flt.mul prec (Flt.floor q) (Flt.ofInt prec k_)))

/-- Modelled from the spec: `roundup` of `test.hh`, which is not part of the sources at hand;
the leading dimension is "the smallest multiple of `alignment` that is ≥ the matrix's
contiguous-dimension extent" (for `x ≥ 0`, `y > 0`). -/
def roundup (x y : Int) : Int := Int.tdiv (x + y - 1) y * y

/-- The quantities computed by lines 48-77 of the test. -/
structure SchurGeometry where
  m_ : Int
  n_ : Int
  Am : Int
  An : Int
  Bm : Int
  Bn : Int
  Cm : Int
  Cn : Int
  mt : Int
  nt : Int
  batch : Int
  lda_ : Int
  ldb_ : Int
  ldc_ : Int
  size_A : Int
  size_B : Int
  size_C : Int

/-- Lines 68-77 on dimensions `m_`, `n_` that the rounding step has produced: the tile grid,
the batch count, the leading dimensions and the buffer sizes.  The layout and the transposition
flags are the constants of lines 23-25.  The integer divisions `m_ / k_`, `n_ / k_` are
undefined for `k_ = 0`, result `none`. -/
def tileGeometry (m_ n_ k_ align : Int) : Option SchurGeometry :=
  let layout := Layout.ColMajor
  let transA_ := Op.NoTrans
  let transB_ := Op.NoTrans
  let Am := if transA_ = Op.NoTrans then m_ else k_
  let An := if transA_ = Op.NoTrans then k_ else m_
  let Bm := if transB_ = Op.NoTrans then k_ else n_
  let Bn := if transB_ = Op.NoTrans then n_ else k_
  let Cm := m_
  let Cn := n_
  let Am1 := if layout = Layout.RowMajor then An else Am
  let An1 := if layout = Layout.RowMajor then Am else An
  let Bm1 := if layout = Layout.RowMajor then Bn else Bm
  let Bn1 := if layout = Layout.RowMajor then Bm else Bn
  let Cm1 := if layout = Layout.RowMajor then Cn else Cm
  let Cn1 := if layout = Layout.RowMajor then Cm else Cn
  if k_ = 0 then none
  else
    let mt := Int.tdiv m_ k_
    let nt := Int.tdiv n_ k_
    let lda_ := roundup Am1 align
    let ldb_ := roundup Bm1 align
    let ldc_ := roundup Cm1 align
    some { m_ := m_, n_ := n_, Am := Am1, An := An1, Bm := Bm1, Bn := Bn1, Cm := Cm1, Cn := Cn1,
           mt := mt, nt := nt, batch := mt * nt,
           lda_ := lda_, ldb_ := ldb_, ldc_ := ldc_,
           size_A := lda_ * An1, size_B := ldb_ * Bn1, size_C := ldc_ * Cn1 }

/-- A non-negative value below `2^63`, which `int64_t` and `size_t` both hold exactly. -/
def inSizeRange (z : Int) : Prop := 0 ≤ z ∧ z < 2 ^ 63

/-- Lines 48-77: the rounding of `m`, `n` to the tile size `k` followed by the tile geometry
of the rounded dimensions. -/
def schurGeometry (prec : Nat) (m n k align : Int) : Option SchurGeometry :=
  (roundToTile prec m k).bind (fun m_ => (roundToTile prec n k).bind (fun n_ =>
    tileGeometry m_ n_ k align))

/-! ## `test_schur_gemm_work`: the batched call -/

/-- The arguments of `blas::batch::gemm( layout, transA, transB, m, n, k, alpha, Aarray, ldda,
Barray, lddb, beta, Carray, lddc, batch, info, queue )`, the queue apart. -/
structure BatchGemmArgs (R : Type) where
  layout : Layout
  transA : Array Op
  transB : Array Op
  m : Array Int
  n : Array Int
  k : Array Int
  alpha : Array R
  Aarray : Array Int
  ldda : Array Int
  Barray : Array Int
  lddb : Array Int
  beta : Array R
  Carray : Array Int
  lddc : Array Int
  batch : Int
  info : Array Int

/-- The queue construction `blas::Queue queue( device, batch )` of line 86: the device id and
the batch-size hint. -/
structure QueueArgs where
  device : Int
  batch : Int
deriving DecidableEq

/-- Line 86 with `batch = mt*nt` of line 70. -/
def schurQueueArgs (device mt nt : Int) : QueueArgs := ⟨device, mt * nt⟩

/-- The call of lines 140-141 as the test issues it: the scalar arguments wrapped in
vectors of length one (lines 97-104), the pointer arrays produced by the build loop
(lines 128-134), `batch = mt*nt` (line 70) and the empty `info` vector (line 138). -/
def schurBatchArgs {R : Type} (mt nt k_ lda_ ldb_ ldc_ : Int) (alpha_ beta_ : R)
    (dA dB dC : Int) : BatchGemmArgs R :=
  let layout := Layout.ColMajor
  let transA_ := Op.NoTrans
  let transB_ := Op.NoTrans
  let p := buildPtrArrays mt nt k_ ldb_ ldc_ dA dB dC PtrArrays.empty
  let k := Array.mkArray 1 k_
  { layout := layout,
    transA := Array.mkArray 1 transA_,
    transB := Array.mkArray 1 transB_,
    m := k, n := k, k := k,
    alpha := Array.mkArray 1 alpha_,
    Aarray := p.dAarray,
    ldda := Array.mkArray 1 lda_,
    Barray := p.dBarray,
    lddb := Array.mkArray 1 ldb_,
    beta := Array.mkArray 1 beta_,
    Carray := p.dCarray,
    lddc := Array.mkArray 1 ldc_,
    batch := mt * nt,
    info := #[] }

/-- Modelled from the spec: the broadcast-or-exact-length rule of the batch dispatch engine,
"every supplied per-item array's length ∈ {1, batch_count}" for
transA, transB, m, n, k, lda, ldb, ldc, alpha, beta, and "address arrays all have
length == batch_count". -/
def lengthsValid {R : Type} (a : BatchGemmArgs R) : Bool :=
  let ok := fun (len : Nat) => decide ((len : Int) = 1 ∨ (len : Int) = a.batch)
  ok a.transA.size && ok a.transB.size && ok a.m.size && ok a.n.size && ok a.k.size
    && ok a.ldda.size && ok a.lddb.size && ok a.lddc.size && ok a.alpha.size && ok a.beta.size
    && decide ((a.Aarray.size : Int) = a.batch) && decide ((a.Barray.size : Int) = a.batch)
    && decide ((a.Carray.size : Int) = a.batch)

/-- The element indices of the column-major `rows`-by-`cols` block that starts at element
offset `off` of a buffer with leading dimension `ld`: entry `(r, c)` is at `off + (r + c*ld)`. -/
def blockIndex (off ld r c : Int) : Int := off + (r + c * ld)

/-! ## The single-call kernel and the batch items -/

/-- The inner product `Σ_{l < k} A(i, l) * B(l, j)` of row `i` of the column-major matrix at
`A` (leading dimension `lda`) with column `j` of the column-major matrix at `B`. -/
def gemmDot {R : Type} [CommRing R] (k : Int) (bufA : Int → R) (A lda : Int)
    (bufB : Int → R) (B ldb : Int) (i j : Int) : R :=
  forLoop k (fun l acc => acc + bufA (A + (i + l * lda)) * bufB (B + (l + j * ldb))) 0

/-- Modelled from the spec: the single-call kernel
`kernel(layout, transA, transB, m, n, k, alpha, A, lda, B, ldb, beta, C, ldc)` of the external
interface, which is not part of the sources at hand, as the reference definition
`C := alpha*A*B + beta*C` over exact arithmetic.  The model is the column-major kernel without
transposition, the only combination the test issues (lines 23-25): every entry
`C(i, j) = bufC[C + i + j*ldc]`, `0 ≤ i < m`, `0 ≤ j < n`, is replaced by
`alpha * Σ_l A(i, l) * B(l, j) + beta * C(i, j)`.  The operands `A`, `B` are read only and
live in buffers of their own (`dA`, `dB`, `dC` are separate allocations). -/
def gemm {R : Type} [CommRing R] (m n k : Int) (alpha : R) (bufA : Int → R) (A lda : Int)
    (bufB : Int → R) (B ldb : Int) (beta : R) (bufC : Int → R) (C ldc : Int) : Int → R :=
  forLoop n (fun j buf =>
    forLoop m (fun i buf =>
      Function.update buf (C + (i + j * ldc))
        (alpha * gemmDot k bufA A lda bufB B ldb i j + beta * buf (C + (i + j * ldc)))) buf) bufC

/-- One batch item of the call of lines 140-141: the kernel with dimensions `k_, k_, k_` and
the broadcast `alpha`, `beta`, `ldda`, `lddb`, `lddc`, on the pointers at batch index `idx` of
the three arrays; `none` when `idx` is not an index of the arrays. -/
def gemmItem {R : Type} [CommRing R] (k_ : Int) (alpha : R) (bufA : Int → R) (lda_ : Int)
    (bufB : Int → R) (ldb_ : Int) (beta : R) (ldc_ : Int) (p : PtrArrays)
    (bufC : Int → R) (idx : Nat) : Option (Int → R) :=
  match p.dAarray[idx]?, p.dBarray[idx]?, p.dCarray[idx]? with
  | some a, some b, some c =>
      some (gemm k_ k_ k_ alpha bufA a lda_ bufB b ldb_ beta bufC c ldc_)
  | _, _, _ => none

/-- The batch items with the indices of `order`, one kernel invocation after the other. -/
def gemmItems {R : Type} [CommRing R] (k_ : Int) (alpha : R) (bufA : Int → R) (lda_ : Int)
    (bufB : Int → R) (ldb_ : Int) (beta : R) (ldc_ : Int) (p : PtrArrays)
    (order : List Nat) (bufC : Int → R) : Option (Int → R) :=
  order.foldlM (fun buf idx => gemmItem k_ alpha bufA lda_ bufB ldb_ beta ldc_ p buf idx) bufC

/-- State of the C buffer `cur` while the batch items run, for the proof that the tiles
refine the single call: the entries of the tiles whose batch index is in `D` hold the value
`alpha * Σ_l A(i, l) * B(l, j) + beta * C(i, j)` of the whole problem, the entries of the other
tiles and everything outside the `mt*k`-by-`nt*k` matrix hold their initial content `bufC`.
The tile of entry `(i, j)` has batch index `i/k + (j/k)*mt`. -/
def TilesDone {R : Type} [CommRing R] (mt nt : Nat) (k : Int) (alpha : R) (bufA : Int → R)
    (dA lda : Int) (bufB : Int → R) (dB ldb : Int) (beta : R) (bufC : Int → R) (dC ldc : Int)
    (D : Nat → Prop) (cur : Int → R) : Prop :=
  (∀ i j : Int, 0 ≤ i → i < mt * k → 0 ≤ j → j < nt * k →
    (D ((i / k).toNat + (j / k).toNat * mt) →
      cur (dC + (i + j * ldc))
        = alpha * gemmDot k bufA dA lda bufB dB ldb i j + beta * bufC (dC + (i + j * ldc)))
    ∧ (¬ D ((i / k).toNat + (j / k).toNat * mt) →
      cur (dC + (i + j * ldc)) = bufC (dC + (i + j * ldc))))
  ∧ (∀ e : Int, (∀ i j : Int, 0 ≤ i → i < mt * k → 0 ≤ j → j < nt * k →
      e ≠ dC + (i + j * ldc)) → cur e = bufC e)

/-! ## The batch dispatch engine -/

/-- The exceptions that the routines throw: `blas::Error`, thrown by `blas_error_if`, and a
plain `std::exception`. -/
inductive Error where
  | blasError
  | stdException
deriving DecidableEq

/-- The macro `blas_error_if( cond )`: throws when the condition holds. -/
def blas_error_if (cond : Bool) : Except Error Unit :=
  if cond then Except.error Error.blasError else Except.ok ()

namespace batch

/-- Modelled from the spec: the batch entry point `blas::batch::gemm`, whose body is not
part of the sources at hand (only the call of the test is).  The validation comes first,
"performed before any device work is issued": the broadcast-or-exact-length rule
`lengthsValid`, then the standard single-call argument constraints, which the spec does not
spell out and which are the parameter `argCheck`.  Only then is device work issued, one
launch per batch item in batch order ("a conforming engine may always emit one group per
item"); the effect of the launch of item `i` on the device state `σ` is the parameter
`launch`.  The result is the outcome of the call together with the device state after
it. -/
def gemm {R σ : Type} (argCheck : BatchGemmArgs R → Bool)
    (launch : BatchGemmArgs R → Int → σ → σ) (a : BatchGemmArgs R) (st : σ) :
    Except Error Unit × σ :=
  if lengthsValid a = false then (Except.error Error.blasError, st)
  else if argCheck a = false then (Except.error Error.blasError, st)
  else (Except.ok (), forLoop a.batch (fun i s => launch a i s) st)

end batch

/-! ## `geru.hh` -/

/-- The argument checks of `geru` (lines 55-65, 103-113 and 198-208, the same in the two
complex overloads and in the generic template). -/
def geruCheck (layout : Layout) (m n incx incy lda : Int) : Except Error Unit := do
  blas_error_if (layout ≠ Layout.ColMajor && layout ≠ Layout.RowMajor)
  blas_error_if (m < 0)
  blas_error_if (n < 0)
  blas_error_if (incx = 0)
  blas_error_if (incy = 0)
  if layout = Layout.ColMajor then
    blas_error_if (lda < m)
  else
    blas_error_if (lda < n)

/-- The three loop nests of lines 221-255 (column-major update), with `A(i, j)` the element
`A[ i + j*lda ]` (line 192). -/
def geruLoops {R : Type} [CommRing R] (m n : Int) (alpha : R) (x : Int → R) (incx : Int)
    (y : Int → R) (incy : Int) (A : Int → R) (lda : Int) : Int → R :=
  if incx = 1 ∧ incy = 1 then
    -- unit stride
    forLoop n (fun j A =>
      let tmp := alpha * y j
      forLoop m (fun i A =>
        Function.update A (i + j * lda) (A (i + j * lda) + x i * tmp)) A) A
  else if incx = 1 then
    -- x unit stride, y non-unit stride
    let jy : Int := if incy > 0 then 0 else (-n + 1) * incy
    (forLoop n (fun j (s : (Int → R) × Int) =>
      let tmp := alpha * y s.2
      (forLoop m (fun i A =>
        Function.update A (i + j * lda) (A (i + j * lda) + x i * tmp)) s.1,
       s.2 + incy)) (A, jy)).1
  else
    -- x and y non-unit stride
    let kx : Int := if incx > 0 then 0 else (-m + 1) * incx
    let jy : Int := if incy > 0 then 0 else (-n + 1) * incy
    (forLoop n (fun j (s : (Int → R) × Int) =>
      let tmp := alpha * y s.2
      let ix : Int := kx
      ((forLoop m (fun i (t : (Int → R) × Int) =>
        (Function.update t.1 (i + j * lda) (t.1 (i + j * lda) + x t.2 * tmp),
         t.2 + incx)) (s.1, ix)).1,
       s.2 + incy)) (A, jy)).1

set_option linter.unusedVariables false in
/-- The generic template `geru<TA, TX, TY>` (lines 181-258) over exact arithmetic.  The
vectors `x`, `y` are read only; the result is the content of the array `A` after the call, or
the exception.  The row-major case calls `geru` again with `Layout::ColMajor`, the dimensions
and the vectors swapped. -/
def geru {R : Type} [CommRing R] [DecidableEq R] (layout : Layout) (m n : Int) (alpha : R)
    (x : Int → R) (incx : Int) (y : Int → R) (incy : Int) (A : Int → R) (lda : Int) :
    Except Error (Int → R) := do
  -- check arguments
  geruCheck layout m n incx incy lda
  -- quick return
  if m = 0 ∨ n = 0 ∨ alpha = 0 then
    return A
  -- for row-major, simply swap dimensions and x <=> y
  if h : layout = Layout.RowMajor then
    geru Layout.ColMajor n m alpha y incy x incx A lda
  else
    return geruLoops m n alpha x incx y incy A lda
termination_by (if layout = Layout.RowMajor then 1 else 0)
decreasing_by simp [h]

/-- Conversion `(blas_int) z` of a 64-bit value to the native integer type of `w` bits
(two's complement wrap). -/
def toBlasInt (w : Nat) (z : Int) : Int :=
  (z + 2 ^ (w - 1)) % 2 ^ w - 2 ^ (w - 1)

/-- The function `std::abs` on `int64_t`: the absolute value as a 64-bit two's complement
number.  The absolute value of the least `int64_t`, `-2^63`, is not representable; the
negation wraps and gives `-2^63` back (formally the behaviour is undefined there). -/
def stdAbs (z : Int) : Int := toBlasInt 64 |z|

/-- The checks "for overflow in native BLAS integer type, if smaller than int64_t" of `geru`
(lines 68-74 and 116-122); `w` is the width of `blas_int` in bits, whose declaration is not
part of the sources at hand, and `std::numeric_limits<blas_int>::max()` is `2^(w-1) - 1`. -/
def geruOverflowCheck (w : Nat) (m n incx incy lda : Int) : Except Error Unit :=
  if w < 64 then do
    blas_error_if (m > 2 ^ (w - 1) - 1)
    blas_error_if (n > 2 ^ (w - 1) - 1)
    blas_error_if (lda > 2 ^ (w - 1) - 1)
    blas_error_if (stdAbs incx > 2 ^ (w - 1) - 1)
    blas_error_if (stdAbs incy > 2 ^ (w - 1) - 1)
  else
    pure ()

/-- The arguments of a call of the native kernel `BLAS_cgeru` / `BLAS_zgeru`, in the order
`( m, n, alpha, x, incx, y, incy, A, lda )`. -/
structure GeruNative (R : Type) where
  m : Int
  n : Int
  alpha : R
  x : Int → R
  incx : Int
  y : Int → R
  incy : Int
  A : Int → R
  lda : Int

/-- The overloads of `geru` for `std::complex<float>` and `std::complex<double>` (lines 46-89
and 94-137, identical up to the native symbol): the checks, the conversions to `blas_int`
and the native call that is issued. -/
def geruComplex {R : Type} (w : Nat) (layout : Layout) (m n : Int) (alpha : R)
    (x : Int → R) (incx : Int) (y : Int → R) (incy : Int) (A : Int → R) (lda : Int) :
    Except Error (GeruNative R) := do
  geruCheck layout m n incx incy lda
  geruOverflowCheck w m n incx incy lda
  let m_ := toBlasInt w m
  let n_ := toBlasInt w n
  let lda_ := toBlasInt w lda
  let incx_ := toBlasInt w incx
  let incy_ := toBlasInt w incy
  if layout = Layout.RowMajor then
    -- swap m <=> n, x <=> y
    return { m := n_, n := m_, alpha := alpha, x := y, incx := incy_, y := x, incy := incx_,
             A := A, lda := lda_ }
  else
    return { m := m_, n := n_, alpha := alpha, x := x, incx := incx_, y := y, incy := incy_,
             A := A, lda := lda_ }

/-! ## `syrk.hh` -/

/-- Modelled from the spec: `uplo2char` of `blas_util.hh`, which is not part of the sources at
hand.  It yields the character by which the native kernel is told the triangle, `'U'` or
`'L'` in the BLAS convention. -/
def uplo2char : Uplo → Char
  | Uplo.Upper => 'U'
  | Uplo.Lower => 'L'
  | Uplo.Illegal => '?'

/-- Modelled from the spec: `op2char` of `blas_util.hh`, which is not part of the sources at
hand.  It yields the character by which the native kernel is told the operation, `'N'`, `'T'`
or `'C'` in the BLAS convention. -/
def op2char : Op → Char
  | Op.NoTrans => 'N'
  | Op.Trans => 'T'
  | Op.ConjTrans => 'C'
  | Op.Illegal => '?'

/-- The argument checks of the `syrk` overloads (lines 28-43, 85-100, 142-156, 198-212).  The
overloads differ in the check of `trans` only: the `float` and `double` overloads
(`complex = false`) admit `Op::ConjTrans`, the two complex overloads (`complex = true`) do
not. -/
def syrkCheck (complex : Bool) (layout : Layout) (uplo : Uplo) (trans : Op)
    (n k lda ldc : Int) : Except Error Unit := do
  blas_error_if (layout ≠ Layout.ColMajor && layout ≠ Layout.RowMajor)
  blas_error_if (uplo ≠ Uplo.Lower && uplo ≠ Uplo.Upper)
  if complex then
    blas_error_if (trans ≠ Op.NoTrans && trans ≠ Op.Trans)
  else
    blas_error_if (trans ≠ Op.NoTrans && trans ≠ Op.Trans && trans ≠ Op.ConjTrans)
  blas_error_if (n < 0)
  blas_error_if (k < 0)
  if xor (decide (trans = Op.NoTrans)) (decide (layout = Layout.RowMajor)) then
    blas_error_if (lda < n)
  else
    blas_error_if (lda < k)
  blas_error_if (ldc < n)

/-- The checks "for overflow in native BLAS integer type, if smaller than int64_t" of `syrk`
(lines 46-51 and the like); `w` is the width of `blas_int` in bits. -/
def syrkOverflowCheck (w : Nat) (n k lda ldc : Int) : Except Error Unit :=
  if w < 64 then do
    blas_error_if (n > 2 ^ (w - 1) - 1)
    blas_error_if (k > 2 ^ (w - 1) - 1)
    blas_error_if (lda > 2 ^ (w - 1) - 1)
    blas_error_if (ldc > 2 ^ (w - 1) - 1)
  else
    pure ()

/-- The row-major translation of the flags (lines 58-63): "swap lower <=> upper" and
"A => A^T; A^T => A; A^H => A". -/
def rowMajorFlags (uplo : Uplo) (trans : Op) : Uplo × Op :=
  (if uplo = Uplo.Lower then Uplo.Upper else Uplo.Lower,
   if trans = Op.NoTrans then Op.Trans else Op.NoTrans)

/-- The arguments of a call of the native kernel `BLAS_ssyrk` / `BLAS_dsyrk` / `BLAS_csyrk` /
`BLAS_zsyrk`, in the order `( uplo, trans, n, k, alpha, A, lda, beta, C, ldc )`. -/
structure SyrkNative (R : Type) where
  uplo_ : Char
  trans_ : Char
  n_ : Int
  k_ : Int
  alpha : R
  A : Int → R
  lda_ : Int
  beta : R
  C : Int → R
  ldc_ : Int

/-- The body shared by the four precision overloads of `syrk` (lines 17-69, 74-126, 131-182,
187-238): the checks, the conversions to `blas_int`, the row-major translation of the flags
and the native call that is issued. -/
def syrkOverload {R : Type} (complex : Bool) (w : Nat) (layout : Layout) (uplo : Uplo)
    (trans : Op) (n k : Int) (alpha : R) (A : Int → R) (lda : Int) (beta : R) (C : Int → R)
    (ldc : Int) : Except Error (SyrkNative R) := do
  syrkCheck complex layout uplo trans n k lda ldc
  syrkOverflowCheck w n k lda ldc
  let n_ := toBlasInt w n
  let k_ := toBlasInt w k
  let lda_ := toBlasInt w lda
  let ldc_ := toBlasInt w ldc
  let flags := if layout = Layout.RowMajor then rowMajorFlags uplo trans else (uplo, trans)
  let uplo_ := uplo2char flags.1
  let trans_ := op2char flags.2
  return { uplo_ := uplo_, trans_ := trans_, n_ := n_, k_ := k_, alpha := alpha, A := A,
           lda_ := lda_, beta := beta, C := C, ldc_ := ldc_ }

/-- The overloads of `syrk` for `float` and `double`. -/
def syrkReal {R : Type} (w : Nat) (layout : Layout) (uplo : Uplo) (trans : Op) (n k : Int)
    (alpha : R) (A : Int → R) (lda : Int) (beta : R) (C : Int → R) (ldc : Int) :
    Except Error (SyrkNative R) :=
  syrkOverload false w layout uplo trans n k alpha A lda beta C ldc

/-- The overloads of `syrk` for `std::complex<float>` and `std::complex<double>`. -/
def syrkComplex {R : Type} (w : Nat) (layout : Layout) (uplo : Uplo) (trans : Op) (n k : Int)
    (alpha : R) (A : Int → R) (lda : Int) (beta : R) (C : Int → R) (ldc : Int) :
    Except Error (SyrkNative R) :=
  syrkOverload true w layout uplo trans n k alpha A lda beta C ldc

/-- The generic template `syrk<TA, TB, TC>` (lines 300-312), "not yet implemented": its body
is `throw std::exception();`. -/
def syrk {R : Type} (_layout : Layout) (_uplo : Uplo) (_trans : Op) (_n _k : Int) (_alpha : R)
    (_A : Int → R) (_lda : Int) (_beta : R) (_C : Int → R) (_ldc : Int) :
    Except Error (Int → R) :=
  throw Error.stdException

/-- The inner product of the native `syrk`: `Σ_{l < k} A(i, l) * A(j, l)` for the `n`-by-`k`
column-major `A` when `notrans`, `Σ_{l < k} A(l, i) * A(l, j)` for the `k`-by-`n`
column-major `A` otherwise. -/
def syrkDot {R : Type} [CommRing R] (notrans : Bool) (k : Int) (A : Int → R) (lda : Int)
    (i j : Int) : R :=
  forLoop k (fun l acc =>
    acc + (if notrans then A (i + l * lda) * A (j + l * lda)
           else A (l + i * lda) * A (l + j * lda))) 0

/-- Modelled from the spec: the native column-major kernel `BLAS_?syrk`, which is not part of
the sources at hand, as the reference the documentation of `syrk` gives: it updates the
`uplo` triangle of the `n`-by-`n` column-major `C` (entry `(i, j)` at `C[i + j*ldc]`; lower
triangle `j ≤ i`, upper triangle `i ≤ j`) with `alpha*A*A^T + beta*C` for `'N'` and with
`alpha*A^T*A + beta*C` otherwise, and does not touch the opposite strict triangle. -/
def syrkNative {R : Type} [CommRing R] (c : SyrkNative R) : Int → R :=
  let lower : Bool := c.uplo_ = 'L'
  let notrans : Bool := c.trans_ = 'N'
  forLoop c.n_ (fun j C =>
    forLoop c.n_ (fun i C =>
      if (if lower then j ≤ i else i ≤ j) then
        Function.update C (i + j * c.ldc_)
          (c.alpha * syrkDot notrans c.k_ c.A c.lda_ i j + c.beta * C (i + j * c.ldc_))
      else C) C) c.C

/-- The range of `int64_t`, the type of the dimensions and leading dimensions that the
routines receive. -/
def isInt64 (z : Int) : Prop := -2 ^ 63 ≤ z ∧ z < 2 ^ 63

/-! ## Theorems: loop invariants -/

theorem forLoop_inv {σ : Type} (P : Nat → σ → Prop) (n : Int) (body : Int → σ → σ) (s : σ)
    (h0 : P 0 s)
    (hstep : ∀ (i : Nat) (t : σ), i < n.toNat → P i t → P (i + 1) (body (i : Int) t)) :
    P n.toNat (forLoop n body s) := by
  unfold forLoop
  generalize n.toNat = N at hstep ⊢
  induction N with
  | zero => simpa using h0
  | succ N ih =>
    rw [List.range_succ, List.foldl_append]
    simp only [List.foldl_cons, List.foldl_nil]
    exact hstep N _ (Nat.lt_succ_self N)
      (ih (fun i t hi hP => hstep i t (Nat.lt_succ_of_lt hi) hP))

/-- Closed form of the three pointer arrays after `j` complete outer iterations followed by
`i` inner iterations: entry `idx` belongs to tile `(idx % mt, idx / mt)`. -/
theorem pushTile_closed (mt : Nat) (k_ ldb_ ldc_ dA dB dC : Int) (j i : Nat) (hi : i < mt)
    (s : PtrArrays)
    (hA : s.dAarray.toList
      = (List.range (j * mt + i)).map (fun idx => dA + ((idx % mt : Nat) : Int) * k_))
    (hB : s.dBarray.toList
      = (List.range (j * mt + i)).map (fun idx => dB + ((idx / mt : Nat) : Int) * k_ * ldb_))
    (hC : s.dCarray.toList
      = (List.range (j * mt + i)).map (fun idx =>
          dC + (((idx % mt : Nat) : Int) * k_ + ((idx / mt : Nat) : Int) * k_ * ldc_))) :
    let t := pushTile k_ ldb_ ldc_ dA dB dC (j : Int) (i : Int) s
    t.dAarray.toList
      = (List.range (j * mt + (i + 1))).map (fun idx => dA + ((idx % mt : Nat) : Int) * k_)
    ∧ t.dBarray.toList
      = (List.range (j * mt + (i + 1))).map
          (fun idx => dB + ((idx / mt : Nat) : Int) * k_ * ldb_)
    ∧ t.dCarray.toList
      = (List.range (j * mt + (i + 1))).map (fun idx =>
          dC + (((idx % mt : Nat) : Int) * k_ + ((idx / mt : Nat) : Int) * k_ * ldc_)) := by
  have hmod : (j * mt + i) % mt = i := by
    rw [Nat.add_comm, Nat.add_mul_mod_self_right]; exact Nat.mod_eq_of_lt hi
  have hdiv : (j * mt + i) / mt = j := by
    have hpos : 0 < mt := Nat.lt_of_le_of_lt (Nat.zero_le _) hi
    rw [Nat.add_comm, Nat.add_mul_div_right _ _ hpos, Nat.div_eq_of_lt hi, Nat.zero_add]
  simp only [pushTile, tileOffsetA, tileOffsetB, tileOffsetC, Array.push_toList, ← Nat.add_assoc, List.range_succ, List.map_append,
    List.map_cons, List.map_nil, hmod, hdiv, hA, hB, hC, and_self]

theorem buildPtrArrays_closed (mt nt : Nat) (k_ ldb_ ldc_ dA dB dC : Int) :
    let t := buildPtrArrays mt nt k_ ldb_ ldc_ dA dB dC PtrArrays.empty
    t.dAarray.toList
      = (List.range (nt * mt)).map (fun idx => dA + ((idx % mt : Nat) : Int) * k_)
    ∧ t.dBarray.toList
      = (List.range (nt * mt)).map (fun idx => dB + ((idx / mt : Nat) : Int) * k_ * ldb_)
    ∧ t.dCarray.toList
      = (List.range (nt * mt)).map (fun idx =>
          dC + (((idx % mt : Nat) : Int) * k_ + ((idx / mt : Nat) : Int) * k_ * ldc_)) := by
  have outer := forLoop_inv
    (fun (j : Nat) (t : PtrArrays) =>
      t.dAarray.toList
        = (List.range (j * mt)).map (fun idx => dA + ((idx % mt : Nat) : Int) * k_)
      ∧ t.dBarray.toList
        = (List.range (j * mt)).map (fun idx => dB + ((idx / mt : Nat) : Int) * k_ * ldb_)
      ∧ t.dCarray.toList
        = (List.range (j * mt)).map (fun idx =>
            dC + (((idx % mt : Nat) : Int) * k_ + ((idx / mt : Nat) : Int) * k_ * ldc_)))
    (nt : Int)
    (fun j s => forLoop (mt : Int) (fun i s => pushTile k_ ldb_ ldc_ dA dB dC j i s) s)
    PtrArrays.empty (by simp [PtrArrays.empty]) ?_
  · simpa [buildPtrArrays] using outer
  · intro j t _ hP
    have inner := forLoop_inv
      (fun (i : Nat) (u : PtrArrays) =>
        u.dAarray.toList
          = (List.range (j * mt + i)).map (fun idx => dA + ((idx % mt : Nat) : Int) * k_)
        ∧ u.dBarray.toList
          = (List.range (j * mt + i)).map
              (fun idx => dB + ((idx / mt : Nat) : Int) * k_ * ldb_)
        ∧ u.dCarray.toList
          = (List.range (j * mt + i)).map (fun idx =>
              dC + (((idx % mt : Nat) : Int) * k_ + ((idx / mt : Nat) : Int) * k_ * ldc_)))
      (mt : Int) (fun i s => pushTile k_ ldb_ ldc_ dA dB dC (j : Int) i s) t
      (by simpa using hP) ?_
    · simpa [Nat.succ_mul] using inner
    · intro i u hi hQ
      have hi' : i < mt := by simpa using hi
      exact pushTile_closed mt k_ ldb_ ldc_ dA dB dC j i hi' u hQ.1 hQ.2.1 hQ.2.2

/-! ## Column-major index arithmetic -/

/-- Column-major indexing is injective on rows below the leading dimension. -/
theorem colMajor_inj (ld r c r' c' : Int) (hr : 0 ≤ r) (hr' : 0 ≤ r') (hrl : r < ld)
    (hrl' : r' < ld) (h : r + c * ld = r' + c' * ld) : r = r' ∧ c = c' := by
  have hld : 0 < ld := lt_of_le_of_lt hr hrl
  have hc : c = c' := by
    rcases lt_trichotomy c c' with hlt | heq | hgt
    · exfalso
      have h1 : (c + 1) * ld ≤ c' * ld := mul_le_mul_of_nonneg_right (by omega) hld.le
      nlinarith
    · exact heq
    · exfalso
      have h1 : (c' + 1) * ld ≤ c * ld := mul_le_mul_of_nonneg_right (by omega) hld.le
      nlinarith
  subst hc
  exact ⟨by linarith, rfl⟩

/-- Quotient and remainder of `i*k + a` with `0 ≤ a < k`. -/
theorem tile_div (k i a : Int) (ha : 0 ≤ a) (hak : a < k) :
    (i * k + a) / k = i ∧ (i * k + a) % k = a := by
  have hk : 0 < k := lt_of_le_of_lt ha hak
  exact (Int.ediv_emod_unique hk).2 ⟨by ring, ha, hak⟩

theorem roundup_one (x : Int) : roundup x 1 = x := by
  simp [roundup]

/-- C2: for a tile size `k > 0` and `m`, `n` multiples of `k`, with alignment 1, the tile
geometry has `mt = m/k`, `nt = n/k`, `batch = mt*nt` and `ldc_ = m`, and the `k`-by-`k` blocks at
the C offsets `i*k + j*k*ldc_` tile the matrix: every element index `r + c*ldc_`
(`0 ≤ r < m`, `0 ≤ c < n`) lies in the block of tile `(r/k, c/k)`, in the block of no other
tile, and every element of every tile block is such an index. -/
theorem tiles_partition (m n k : Int) (hk : 0 < k) (hm : k ∣ m) (hn : k ∣ n) :
    ∃ g : SchurGeometry, tileGeometry m n k 1 = some g
      ∧ g.mt = m / k ∧ g.nt = n / k ∧ g.batch = (m / k) * (n / k) ∧ g.ldc_ = m
      ∧ (∀ r c : Int, 0 ≤ r → r < m → 0 ≤ c → c < n →
          (0 ≤ r / k ∧ r / k < g.mt ∧ 0 ≤ c / k ∧ c / k < g.nt
            ∧ ∃ a b : Int, 0 ≤ a ∧ a < k ∧ 0 ≤ b ∧ b < k
              ∧ blockIndex 0 g.ldc_ r c
                = blockIndex (tileOffsetC k g.ldc_ (r / k) (c / k)) g.ldc_ a b)
          ∧ ∀ i j a b : Int, 0 ≤ i → i < g.mt → 0 ≤ j → j < g.nt →
              0 ≤ a → a < k → 0 ≤ b → b < k →
              blockIndex 0 g.ldc_ r c = blockIndex (tileOffsetC k g.ldc_ i j) g.ldc_ a b →
              i = r / k ∧ j = c / k)
      ∧ (∀ i j a b : Int, 0 ≤ i → i < g.mt → 0 ≤ j → j < g.nt →
          0 ≤ a → a < k → 0 ≤ b → b < k →
          ∃ r c : Int, 0 ≤ r ∧ r < m ∧ 0 ≤ c ∧ c < n
            ∧ blockIndex (tileOffsetC k g.ldc_ i j) g.ldc_ a b = blockIndex 0 g.ldc_ r c) := by
  obtain ⟨mt, rfl⟩ := hm
  obtain ⟨nt, rfl⟩ := hn
  have hk0 : k ≠ 0 := ne_of_gt hk
  have hmt : (k * mt) / k = mt := Int.mul_ediv_cancel_left mt hk0
  have hnt : (k * nt) / k = nt := Int.mul_ediv_cancel_left nt hk0
  refine ⟨_, by simp only [tileGeometry, if_neg hk0]; rfl, ?_, ?_, ?_, ?_, ?_, ?_⟩
  · simp [Int.mul_tdiv_cancel_left _ hk0, hmt]
  · simp [Int.mul_tdiv_cancel_left _ hk0, hnt]
  · simp [Int.mul_tdiv_cancel_left _ hk0, hmt, hnt]
  · simp [roundup_one]
  · simp only [roundup_one, Int.mul_tdiv_cancel_left _ hk0, if_true, if_false]
    simp only [show (Layout.ColMajor = Layout.RowMajor) = False from by simp, if_false]
    intro r c hr hrm hc hcn
    have hrk : r / k < mt := Int.ediv_lt_of_lt_mul hk (by linarith [mul_comm k mt])
    have hck : c / k < nt := Int.ediv_lt_of_lt_mul hk (by linarith [mul_comm k nt])
    refine ⟨⟨Int.ediv_nonneg hr hk.le, hrk, Int.ediv_nonneg hc hk.le, hck, r % k, c % k,
      Int.emod_nonneg _ hk0, Int.emod_lt_of_pos _ hk, Int.emod_nonneg _ hk0,
      Int.emod_lt_of_pos _ hk, ?_⟩, ?_⟩
    · simp only [blockIndex, tileOffsetC]
      have h1 := Int.ediv_add_emod r k
      have h2 := Int.ediv_add_emod c k
      linear_combination (-1 : Int) * h1 - (k * mt) * h2
    · intro i j a b hi him hj _ ha hak hb hbk h
      simp only [blockIndex, tileOffsetC] at h
      have hrow : i * k + a < k * mt := by nlinarith
      have hrow0 : 0 ≤ i * k + a := by nlinarith
      have h' : r + c * (k * mt) = (i * k + a) + (j * k + b) * (k * mt) := by
        linear_combination h
      obtain ⟨e1, e2⟩ := colMajor_inj (k * mt) r c (i * k + a) (j * k + b) hr hrow0 hrm hrow h'
      exact ⟨by rw [e1, (tile_div k i a ha hak).1], by rw [e2, (tile_div k j b hb hbk).1]⟩
  · simp only [roundup_one, Int.mul_tdiv_cancel_left _ hk0, if_true, if_false]
    simp only [show (Layout.ColMajor = Layout.RowMajor) = False from by simp, if_false]
    intro i j a b hi him hj hjn ha hak hb hbk
    refine ⟨i * k + a, j * k + b, by nlinarith, by nlinarith, by nlinarith, by nlinarith, ?_⟩
    simp only [blockIndex, tileOffsetC]
    ring

theorem buildPtrArrays_size (mt nt k_ ldb_ ldc_ dA dB dC : Int) (hmt : 0 ≤ mt) (hnt : 0 ≤ nt) :
    ((buildPtrArrays mt nt k_ ldb_ ldc_ dA dB dC PtrArrays.empty).dAarray.size : Int) = mt * nt
    ∧ ((buildPtrArrays mt nt k_ ldb_ ldc_ dA dB dC PtrArrays.empty).dBarray.size : Int) = mt * nt
    ∧ ((buildPtrArrays mt nt k_ ldb_ ldc_ dA dB dC PtrArrays.empty).dCarray.size : Int)
        = mt * nt := by
  obtain ⟨mt', rfl⟩ := Int.eq_ofNat_of_zero_le hmt
  obtain ⟨nt', rfl⟩ := Int.eq_ofNat_of_zero_le hnt
  obtain ⟨hA, hB, hC⟩ := buildPtrArrays_closed mt' nt' k_ ldb_ ldc_ dA dB dC
  have sA := congrArg List.length hA
  have sB := congrArg List.length hB
  have sC := congrArg List.length hC
  simp only [Array.length_toList, List.length_map, List.length_range] at sA sB sC
  rw [sA, sB, sC]
  push_cast
  exact ⟨by ring, by ring, by ring⟩

theorem buildPtrArrays_getIdx (mt nt : Nat) (k_ ldb_ ldc_ dA dB dC : Int) (idx : Nat)
    (h : idx < nt * mt) :
    (buildPtrArrays mt nt k_ ldb_ ldc_ dA dB dC PtrArrays.empty).dAarray[idx]?
      = some (dA + ((idx % mt : Nat) : Int) * k_)
    ∧ (buildPtrArrays mt nt k_ ldb_ ldc_ dA dB dC PtrArrays.empty).dBarray[idx]?
      = some (dB + ((idx / mt : Nat) : Int) * k_ * ldb_)
    ∧ (buildPtrArrays mt nt k_ ldb_ ldc_ dA dB dC PtrArrays.empty).dCarray[idx]?
      = some (dC + (((idx % mt : Nat) : Int) * k_ + ((idx / mt : Nat) : Int) * k_ * ldc_)) := by
  obtain ⟨hA, hB, hC⟩ := buildPtrArrays_closed mt nt k_ ldb_ ldc_ dA dB dC
  refine ⟨?_, ?_, ?_⟩
  · rw [Array.getElem?_eq_getElem?_toList, hA, List.getElem?_map, List.getElem?_range h]
    rfl
  · rw [Array.getElem?_eq_getElem?_toList, hB, List.getElem?_map, List.getElem?_range h]
    rfl
  · rw [Array.getElem?_eq_getElem?_toList, hC, List.getElem?_map, List.getElem?_range h]
    rfl

/-! ## Claims on the Schur test -/

/-- C1: for every tile grid `mt, nt ≥ 0`, tile size `k_` and leading dimensions, the build loop
(outer loop over `j`, inner loop over `i`) leaves at batch index `i + j*mt`, for every tile
`0 ≤ i < mt`, `0 ≤ j < nt`, the A address `dA + i*k_`, the B address `dB + j*k_*ldb_` and the
C address `dC + (i*k_ + j*k_*ldc_)`. -/
theorem buildPtrArrays_entry (mt nt k_ ldb_ ldc_ dA dB dC i j : Int)
    (hi0 : 0 ≤ i) (hi : i < mt) (hj0 : 0 ≤ j) (hj : j < nt) :
    (buildPtrArrays mt nt k_ ldb_ ldc_ dA dB dC PtrArrays.empty).dAarray[(i + j * mt).toNat]?
      = some (dA + i * k_)
    ∧ (buildPtrArrays mt nt k_ ldb_ ldc_ dA dB dC PtrArrays.empty).dBarray[(i + j * mt).toNat]?
      = some (dB + j * k_ * ldb_)
    ∧ (buildPtrArrays mt nt k_ ldb_ ldc_ dA dB dC PtrArrays.empty).dCarray[(i + j * mt).toNat]?
      = some (dC + (i * k_ + j * k_ * ldc_)) := by
  obtain ⟨mt', rfl⟩ := Int.eq_ofNat_of_zero_le (le_trans hi0 hi.le)
  obtain ⟨nt', rfl⟩ := Int.eq_ofNat_of_zero_le (le_trans hj0 hj.le)
  obtain ⟨i', rfl⟩ := Int.eq_ofNat_of_zero_le hi0
  obtain ⟨j', rfl⟩ := Int.eq_ofNat_of_zero_le hj0
  have hi' : i' < mt' := by exact_mod_cast hi
  have hj' : j' < nt' := by exact_mod_cast hj
  obtain ⟨hA, hB, hC⟩ := buildPtrArrays_closed mt' nt' k_ ldb_ ldc_ dA dB dC
  have hidx : ((i' : Int) + (j' : Int) * (mt' : Int)).toNat = i' + j' * mt' := by
    have : ((i' : Int) + (j' : Int) * (mt' : Int)) = ((i' + j' * mt' : Nat) : Int) := by
      push_cast; ring
    rw [this, Int.toNat_natCast]
  have hlt : i' + j' * mt' < nt' * mt' := by
    calc i' + j' * mt' < mt' + j' * mt' := Nat.add_lt_add_right hi' _
      _ = (j' + 1) * mt' := by ring
      _ ≤ nt' * mt' := Nat.mul_le_mul_right _ hj'
  have hmod : (i' + j' * mt') % mt' = i' := by
    rw [Nat.add_mul_mod_self_right]; exact Nat.mod_eq_of_lt hi'
  have hdiv : (i' + j' * mt') / mt' = j' := by
    have hpos : 0 < mt' := Nat.lt_of_le_of_lt (Nat.zero_le _) hi'
    rw [Nat.add_mul_div_right _ _ hpos, Nat.div_eq_of_lt hi', Nat.zero_add]
  rw [hidx]
  refine ⟨?_, ?_, ?_⟩
  · rw [Array.getElem?_eq_getElem?_toList, hA, List.getElem?_map, List.getElem?_range hlt]
    simp only [Option.map, hmod]
  · rw [Array.getElem?_eq_getElem?_toList, hB, List.getElem?_map, List.getElem?_range hlt]
    simp only [Option.map, hdiv]
  · rw [Array.getElem?_eq_getElem?_toList, hC, List.getElem?_map, List.getElem?_range hlt]
    simp only [Option.map, hmod, hdiv]

theorem buildPtrArrays_entry_witness :
    (buildPtrArrays 2 3 4 5 6 100 200 300 PtrArrays.empty).dAarray[((1 : Int) + 2 * 2).toNat]?
      = some (100 + 1 * 4)
    ∧ (buildPtrArrays 2 3 4 5 6 100 200 300 PtrArrays.empty).dBarray[((1 : Int) + 2 * 2).toNat]?
      = some (200 + 2 * 4 * 5)
    ∧ (buildPtrArrays 2 3 4 5 6 100 200 300 PtrArrays.empty).dCarray[((1 : Int) + 2 * 2).toNat]?
      = some (300 + (1 * 4 + 2 * 4 * 6)) :=
  buildPtrArrays_entry 2 3 4 5 6 100 200 300 1 2 (by decide) (by decide) (by decide) (by decide)

theorem tiles_partition_witness :
    ∃ g : SchurGeometry, tileGeometry 4 6 2 1 = some g
      ∧ g.mt = 2 ∧ g.nt = 3 ∧ g.batch = 6 ∧ g.ldc_ = 4
      ∧ blockIndex 0 g.ldc_ 3 5 = blockIndex (tileOffsetC 2 g.ldc_ 1 2) g.ldc_ 1 1 := by
  obtain ⟨g, hg, hmt, hnt, hb, hld, _, _⟩ :=
    tiles_partition 4 6 2 (by decide) (by decide) (by decide)
  refine ⟨g, hg, by rw [hmt]; decide, by rw [hnt]; decide, by rw [hb]; decide, hld, ?_⟩
  rw [hld]
  decide

/-- C4: for `mt, nt ≥ 0` the three address arrays passed to the batched gemm have length
`mt*nt`, which is the batch count of the call and the batch-size hint of the queue, every
other per-item vector of the call has length 1, and the call satisfies the
broadcast-or-exact-length rule. -/
theorem schurBatchArgs_lengths {R : Type} (mt nt k_ lda_ ldb_ ldc_ : Int) (alpha_ beta_ : R)
    (dA dB dC device : Int) (hmt : 0 ≤ mt) (hnt : 0 ≤ nt) :
    ((schurBatchArgs mt nt k_ lda_ ldb_ ldc_ alpha_ beta_ dA dB dC).Aarray.size : Int) = mt * nt
    ∧ ((schurBatchArgs mt nt k_ lda_ ldb_ ldc_ alpha_ beta_ dA dB dC).Barray.size : Int)
        = mt * nt
    ∧ ((schurBatchArgs mt nt k_ lda_ ldb_ ldc_ alpha_ beta_ dA dB dC).Carray.size : Int)
        = mt * nt
    ∧ (schurBatchArgs mt nt k_ lda_ ldb_ ldc_ alpha_ beta_ dA dB dC).batch = mt * nt
    ∧ (schurQueueArgs device mt nt).batch
        = (schurBatchArgs mt nt k_ lda_ ldb_ ldc_ alpha_ beta_ dA dB dC).batch
    ∧ (schurBatchArgs mt nt k_ lda_ ldb_ ldc_ alpha_ beta_ dA dB dC).transA.size = 1
    ∧ (schurBatchArgs mt nt k_ lda_ ldb_ ldc_ alpha_ beta_ dA dB dC).transB.size = 1
    ∧ (schurBatchArgs mt nt k_ lda_ ldb_ ldc_ alpha_ beta_ dA dB dC).m.size = 1
    ∧ (schurBatchArgs mt nt k_ lda_ ldb_ ldc_ alpha_ beta_ dA dB dC).n.size = 1
    ∧ (schurBatchArgs mt nt k_ lda_ ldb_ ldc_ alpha_ beta_ dA dB dC).k.size = 1
    ∧ (schurBatchArgs mt nt k_ lda_ ldb_ ldc_ alpha_ beta_ dA dB dC).ldda.size = 1
    ∧ (schurBatchArgs mt nt k_ lda_ ldb_ ldc_ alpha_ beta_ dA dB dC).lddb.size = 1
    ∧ (schurBatchArgs mt nt k_ lda_ ldb_ ldc_ alpha_ beta_ dA dB dC).lddc.size = 1
    ∧ (schurBatchArgs mt nt k_ lda_ ldb_ ldc_ alpha_ beta_ dA dB dC).alpha.size = 1
    ∧ (schurBatchArgs mt nt k_ lda_ ldb_ ldc_ alpha_ beta_ dA dB dC).beta.size = 1
    ∧ lengthsValid (schurBatchArgs mt nt k_ lda_ ldb_ ldc_ alpha_ beta_ dA dB dC) = true := by
  obtain ⟨hA, hB, hC⟩ := buildPtrArrays_size mt nt k_ ldb_ ldc_ dA dB dC hmt hnt
  refine ⟨hA, hB, hC, rfl, rfl, ?_, ?_, ?_, ?_, ?_, ?_, ?_, ?_, ?_, ?_, ?_⟩
  all_goals first
    | exact Array.size_mkArray 1 _
    | skip
  simp only [lengthsValid, schurBatchArgs, Array.size_mkArray, hA, hB, hC]
  simp

theorem schurBatchArgs_lengths_witness :
    ((schurBatchArgs 2 3 4 8 4 8 (1 : Int) 0 0 0 0).Aarray.size : Int) = 2 * 3
    ∧ lengthsValid (schurBatchArgs 2 3 4 8 4 8 (1 : Int) 0 0 0 0) = true := by
  have h := schurBatchArgs_lengths 2 3 4 8 4 8 (1 : Int) 0 0 0 0 0 (by decide) (by decide)
  exact ⟨h.1, h.2.2.2.2.2.2.2.2.2.2.2.2.2.2.2⟩

/-! ## The floating-point model -/

theorem bitLen_zero (fuel : Nat) : bitLen fuel 0 = 0 := by
  cases fuel <;> simp [bitLen]

theorem bitLen_pow_le (fuel : Nat) : ∀ n : Nat, 0 < n → n ≤ fuel →
    1 ≤ bitLen fuel n ∧ 2 ^ (bitLen fuel n - 1) ≤ n := by
  induction fuel with
  | zero => intro n h0 h1; omega
  | succ fuel ih =>
    intro n h0 h1
    have hn : n ≠ 0 := Nat.pos_iff_ne_zero.mp h0
    simp only [bitLen, if_neg hn, Nat.add_sub_cancel]
    refine ⟨Nat.le_add_left _ _, ?_⟩
    by_cases h2 : n / 2 = 0
    · rw [h2, bitLen_zero]; simpa using h0
    · have h3 : 0 < n / 2 := Nat.pos_of_ne_zero h2
      obtain ⟨h4, h5⟩ := ih (n / 2) h3 (by omega)
      have h6 : 2 ^ bitLen fuel (n / 2) = 2 * 2 ^ (bitLen fuel (n / 2) - 1) := by
        rw [← pow_succ']; congr 1; omega
      rw [h6]
      omega

theorem le_roundHalfEven (num den : Nat) : num / den ≤ roundHalfEven num den := by
  unfold roundHalfEven
  split_ifs <;> omega

/-- A non-zero integer converts to a non-zero floating-point value. -/
theorem ofInt_mant_ne_zero (p : Nat) (hp : 1 ≤ p) (z : Int) (hz : z ≠ 0) :
    (Flt.ofInt p z).mant ≠ 0 := by
  unfold Flt.ofInt roundRat
  rw [if_neg hz]
  dsimp only
  have hn : 0 < z.natAbs := Int.natAbs_pos.mpr hz
  obtain ⟨ha1, ha2⟩ := bitLen_pow_le z.natAbs z.natAbs hn le_rfl
  have hb : bitLen 1 1 = 1 := by decide
  rw [hb]
  generalize hlg : (if 1 * 2 ^ ((bitLen z.natAbs z.natAbs : Int) - ((1 : Nat) : Int)).toNat
      ≤ z.natAbs * 2 ^ (((1 : Nat) : Int) - (bitLen z.natAbs z.natAbs : Int)).toNat
      then (bitLen z.natAbs z.natAbs : Int) - ((1 : Nat) : Int)
      else (bitLen z.natAbs z.natAbs : Int) - ((1 : Nat) : Int) - 1) = lg
  have hlg' : lg ≤ (bitLen z.natAbs z.natAbs : Int) - 1 := by
    rw [← hlg]; split_ifs <;> push_cast <;> omega
  have he : (lg - ((p : Int) - 1)).toNat ≤ bitLen z.natAbs z.natAbs - 1 := by omega
  have hD : 1 * 2 ^ (lg - ((p : Int) - 1)).toNat ≤ z.natAbs * 2 ^ (-(lg - ((p : Int) - 1))).toNat := by
    calc 1 * 2 ^ (lg - ((p : Int) - 1)).toNat
        ≤ 2 ^ (bitLen z.natAbs z.natAbs - 1) := by
          rw [Nat.one_mul]; exact Nat.pow_le_pow_right (by decide) he
      _ ≤ z.natAbs := ha2
      _ ≤ z.natAbs * 2 ^ (-(lg - ((p : Int) - 1))).toNat :=
          Nat.le_mul_of_pos_right _ (Nat.pow_pos (by decide))
  have hpos : 0 < 1 * 2 ^ (lg - ((p : Int) - 1)).toNat :=
    Nat.mul_pos (by decide) (Nat.pow_pos (by decide))
  have hR := le_roundHalfEven (z.natAbs * 2 ^ (-(lg - ((p : Int) - 1))).toNat)
    (1 * 2 ^ (lg - ((p : Int) - 1)).toNat)
  have hq : 1 ≤ (z.natAbs * 2 ^ (-(lg - ((p : Int) - 1))).toNat)
      / (1 * 2 ^ (lg - ((p : Int) - 1)).toNat) := (Nat.one_le_div_iff hpos).mpr hD
  have hs : z.sign ≠ 0 := by
    intro h; exact hz (Int.sign_eq_zero_iff_zero.mp h)
  refine mul_ne_zero hs ?_
  exact_mod_cast Nat.pos_iff_ne_zero.mp (lt_of_lt_of_le Nat.zero_lt_one (le_trans hq hR))

/-- The rounding step produces a value for every non-zero tile size. -/
theorem roundToTile_isSome (prec : Nat) (m k : Int) (hk : k ≠ 0) :
    ∃ m_ : Int, roundToTile prec m k = some m_ := by
  unfold roundToTile Flt.div
  rw [if_neg (ofInt_mant_ne_zero 24 (by decide) k hk)]
  exact ⟨_, rfl⟩

theorem roundToTile_zero (prec : Nat) (m : Int) : roundToTile prec m 0 = none := by
  simp [roundToTile, Flt.div, Flt.ofInt, roundRat]

/-- The fields of the tile geometry for a non-zero tile size. -/
theorem tileGeometry_some (m_ n_ k_ align : Int) (hk : k_ ≠ 0) :
    ∃ g : SchurGeometry, tileGeometry m_ n_ k_ align = some g
      ∧ g.m_ = m_ ∧ g.n_ = n_
      ∧ g.mt = Int.tdiv m_ k_ ∧ g.nt = Int.tdiv n_ k_ ∧ g.batch = g.mt * g.nt
      ∧ g.lda_ = roundup m_ align ∧ g.ldb_ = roundup k_ align ∧ g.ldc_ = roundup m_ align
      ∧ g.size_A = g.lda_ * k_ ∧ g.size_B = g.ldb_ * n_ ∧ g.size_C = g.ldc_ * n_ := by
  refine ⟨_, by simp only [tileGeometry, if_neg hk]; rfl, ?_⟩
  simp

/-- C5: with `m = n = 256` and tile size 64 the geometry is `mt = nt = 4`, batch count 16, and
tile `(i, j) = (1, 2)`, at batch index `1 + 2*mt = 9`, gets the A address `dA + 64`, the
B address `dB + 2*64*ldb_` and the C address `dC + (64 + 2*64*ldc_)`. -/
theorem schur_scenario_256 (prec : Nat) (hp : prec = 24 ∨ prec = 53) (align dA dB dC : Int) :
    ∃ g : SchurGeometry, schurGeometry prec 256 256 64 align = some g
      ∧ g.mt = 4 ∧ g.nt = 4 ∧ g.batch = 16 ∧ ((1 : Int) + 2 * g.mt).toNat = 9
      ∧ (buildPtrArrays g.mt g.nt 64 g.ldb_ g.ldc_ dA dB dC PtrArrays.empty).dAarray[9]?
          = some (dA + 64)
      ∧ (buildPtrArrays g.mt g.nt 64 g.ldb_ g.ldc_ dA dB dC PtrArrays.empty).dBarray[9]?
          = some (dB + 2 * 64 * g.ldb_)
      ∧ (buildPtrArrays g.mt g.nt 64 g.ldb_ g.ldc_ dA dB dC PtrArrays.empty).dCarray[9]?
          = some (dC + (64 + 2 * 64 * g.ldc_)) := by
  have hr : roundToTile prec 256 64 = some 256 := by
    rcases hp with rfl | rfl <;> decide
  obtain ⟨g, hg, _, _, hmt, hnt, hb, _⟩ := tileGeometry_some 256 256 64 align (by decide)
  have hmt' : g.mt = 4 := by rw [hmt]; decide
  have hnt' : g.nt = 4 := by rw [hnt]; decide
  have hidx : ((1 : Int) + 2 * g.mt).toNat = 9 := by rw [hmt']; decide
  obtain ⟨gA, gB, gC⟩ := buildPtrArrays_getIdx 4 4 64 g.ldb_ g.ldc_ dA dB dC 9 (by decide)
  refine ⟨g, by simp [schurGeometry, hr, hg], hmt', hnt', by rw [hb, hmt', hnt']; decide,
    hidx, ?_, ?_, ?_⟩
  · rw [hmt', hnt']; simpa using gA
  · rw [hmt', hnt']; simpa using gB
  · rw [hmt', hnt']; simpa using gC

theorem schur_scenario_256_witness :
    ∃ g : SchurGeometry, schurGeometry 24 256 256 64 1 = some g
      ∧ g.mt = 4 ∧ g.nt = 4 ∧ g.batch = 16
      ∧ (buildPtrArrays g.mt g.nt 64 g.ldb_ g.ldc_ 0 0 0 PtrArrays.empty).dAarray[9]?
          = some (0 + 64) := by
  obtain ⟨g, h1, h2, h3, h4, _, h5, _⟩ := schur_scenario_256 24 (Or.inl rfl) 1 0 0 0
  exact ⟨g, h1, h2, h3, h4, h5⟩

/-- C6 (the code departs from it): the rounding step `m_ = floor( (float)m_/k_ ) * k_` does
not round down to a multiple of `k_` once `m_` exceeds the 24-bit significand of `float`.
With `m = 16777219`, `k = 1` it returns `16777220`, above `m` and different from
`k*(m div k) = 16777219`, whichever overload of `floor` is used; with the `float` overload,
`m = 50331645`, `k = 3` gives `50331644`, which is not a multiple of 3, so that
`mt*k = 50331642` differs from the rounded dimension. -/
theorem roundToTile_rounds_up :
    roundToTile 24 16777219 1 = some 16777220
    ∧ roundToTile 53 16777219 1 = some 16777220
    ∧ (1 : Int) * (16777219 / 1) = 16777219
    ∧ roundToTile 24 50331645 3 = some 50331644
    ∧ (50331644 : Int) % 3 = 2
    ∧ Int.tdiv 50331644 3 * 3 = 50331642 := by
  decide

/-- C7 (as stated it fails): dimensions that are not divisible by the tile size are accepted
without any reported violation and silently corrected; `m = 5` with tile size 2 is replaced
by `m_ = 4`, giving `mt = 2`, whichever overload of `floor` is used. -/
theorem schurGeometry_accepts_indivisible :
    ¬ ((2 : Int) ∣ 5)
    ∧ (∃ g : SchurGeometry, schurGeometry 24 5 4 2 1 = some g
        ∧ g.m_ = 4 ∧ g.n_ = 4 ∧ g.mt = 2 ∧ g.nt = 2 ∧ g.batch = 4)
    ∧ (∃ g : SchurGeometry, schurGeometry 53 5 4 2 1 = some g
        ∧ g.m_ = 4 ∧ g.n_ = 4 ∧ g.mt = 2 ∧ g.nt = 2 ∧ g.batch = 4) := by
  refine ⟨by decide, ?_, ?_⟩
  · have h1 : roundToTile 24 5 2 = some 4 := by decide
    have h2 : roundToTile 24 4 2 = some 4 := by decide
    exact ⟨_, by simp only [schurGeometry, h1, h2, Option.bind]; rfl, rfl, rfl, by decide,
      by decide, by decide⟩
  · have h1 : roundToTile 53 5 2 = some 4 := by decide
    have h2 : roundToTile 53 4 2 = some 4 := by decide
    exact ⟨_, by simp only [schurGeometry, h1, h2, Option.bind]; rfl, rfl, rfl, by decide,
      by decide, by decide⟩

/-! ## The kernel, entry by entry -/

/-- A loop that rewrites one address per iteration, the addresses being pairwise distinct:
each address gets its new value computed from the initial content, all else is untouched. -/
theorem forLoop_update {R : Type} (n : Int) (addr : Int → Int) (val : Int → R → R)
    (buf : Int → R)
    (hinj : ∀ i i' : Int, 0 ≤ i → i < n → 0 ≤ i' → i' < n → addr i = addr i' → i = i') :
    (∀ i : Int, 0 ≤ i → i < n →
      forLoop n (fun i b => Function.update b (addr i) (val i (b (addr i)))) buf (addr i)
        = val i (buf (addr i)))
    ∧ (∀ e : Int, (∀ i : Int, 0 ≤ i → i < n → e ≠ addr i) →
      forLoop n (fun i b => Function.update b (addr i) (val i (b (addr i)))) buf e = buf e) := by
  have key := forLoop_inv
    (fun (c : Nat) (b : Int → R) =>
      (∀ i : Int, 0 ≤ i → i < c → b (addr i) = val i (buf (addr i)))
      ∧ (∀ e : Int, (∀ i : Int, 0 ≤ i → i < c → e ≠ addr i) → b e = buf e))
    n (fun i b => Function.update b (addr i) (val i (b (addr i)))) buf
    ⟨fun i h0 h1 => by omega, fun e _ => rfl⟩ ?_
  · obtain ⟨k1, k2⟩ := key
    refine ⟨fun i h0 h1 => k1 i h0 (by omega), fun e he => k2 e (fun i h0 h1 => he i h0 (by omega))⟩
  · intro c b hc ⟨h1, h2⟩
    have hcn : (c : Int) < n := by omega
    have hold : b (addr c) = buf (addr c) := by
      apply h2
      intro i h0 hi heq
      have := hinj c i (by omega) hcn h0 (by omega) heq
      omega
    refine ⟨?_, ?_⟩
    · intro i h0 hi
      beta_reduce
      by_cases hic : i = c
      · subst hic
        rw [Function.update_same, hold]
      · have hne : addr i ≠ addr c := by
          intro heq
          exact hic (hinj i c h0 (by omega) (by omega) hcn heq)
        rw [Function.update_noteq hne]
        exact h1 i h0 (by omega)
    · intro e he
      have hne : e ≠ addr c := he c (by omega) (by omega)
      beta_reduce
      rw [Function.update_noteq hne]
      exact h2 e (fun i h0 hi => he i h0 (by omega))

/-- The column-by-column update of an `m`-by-`n` column-major block whose leading dimension
is at least `m`: entry `(i, j)` gets its new value computed from the initial content, and
everything outside the block is untouched. -/
theorem forLoop_update_block {R : Type} (m n ld C : Int) (val : Int → Int → R → R)
    (buf : Int → R) (hld : m ≤ ld) :
    (∀ i j : Int, 0 ≤ i → i < m → 0 ≤ j → j < n →
      forLoop n (fun j b => forLoop m (fun i b =>
        Function.update b (C + (i + j * ld)) (val i j (b (C + (i + j * ld))))) b) buf
          (C + (i + j * ld))
        = val i j (buf (C + (i + j * ld))))
    ∧ (∀ e : Int, (∀ i j : Int, 0 ≤ i → i < m → 0 ≤ j → j < n → e ≠ C + (i + j * ld)) →
      forLoop n (fun j b => forLoop m (fun i b =>
        Function.update b (C + (i + j * ld)) (val i j (b (C + (i + j * ld))))) b) buf e
        = buf e) := by
  have hinj : ∀ i j i' j' : Int, 0 ≤ i → i < m → 0 ≤ i' → i' < m →
      C + (i + j * ld) = C + (i' + j' * ld) → i = i' ∧ j = j' := by
    intro i j i' j' h0 h1 h0' h1' h
    exact colMajor_inj ld i j i' j' h0 h0' (by omega) (by omega) (by linarith)
  have key := forLoop_inv
    (fun (c : Nat) (b : Int → R) =>
      (∀ i j : Int, 0 ≤ i → i < m → 0 ≤ j → j < c →
        b (C + (i + j * ld)) = val i j (buf (C + (i + j * ld))))
      ∧ (∀ e : Int, (∀ i j : Int, 0 ≤ i → i < m → 0 ≤ j → j < c → e ≠ C + (i + j * ld)) →
        b e = buf e))
    n (fun j b => forLoop m (fun i b =>
        Function.update b (C + (i + j * ld)) (val i j (b (C + (i + j * ld))))) b) buf
    ⟨fun i j _ _ h0 h1 => by omega, fun e _ => rfl⟩ ?_
  · obtain ⟨k1, k2⟩ := key
    exact ⟨fun i j hi0 hi hj0 hj => k1 i j hi0 hi hj0 (by omega),
      fun e he => k2 e (fun i j hi0 hi hj0 hj => he i j hi0 hi hj0 (by omega))⟩
  · intro c b hc ⟨h1, h2⟩
    have hcn : (c : Int) < n := by omega
    obtain ⟨u1, u2⟩ := forLoop_update m (fun i => C + (i + (c : Int) * ld))
      (fun i old => val i c old) b
      (fun i i' h0 hi h0' hi' heq => (hinj i c i' c h0 hi h0' hi' heq).1)
    beta_reduce at u1 u2 ⊢
    refine ⟨?_, ?_⟩
    · intro i j hi0 hi hj0 hj
      by_cases hjc : j = c
      · subst hjc
        rw [u1 i hi0 hi]
        congr 1
        apply h2
        intro i' j' hi0' hi' hj0' hj' heq
        have := (hinj i c i' j' hi0 hi hi0' hi' heq).2
        omega
      · rw [u2]
        · exact h1 i j hi0 hi hj0 (by omega)
        · intro i' hi0' hi' heq
          exact hjc (hinj i j i' c hi0 hi hi0' hi' heq).2
    · intro e he
      rw [u2]
      · exact h2 e (fun i j hi0 hi hj0 hj => he i j hi0 hi hj0 (by omega))
      · intro i hi0 hi
        exact he i c hi0 hi (by omega) (by omega)

/-- The kernel on an `m`-by-`n` block with `m ≤ ldc`: the entries of the block. -/
theorem gemm_entry {R : Type} [CommRing R] (m n k : Int) (alpha : R) (bufA : Int → R)
    (A lda : Int) (bufB : Int → R) (B ldb : Int) (beta : R) (bufC : Int → R) (C ldc : Int)
    (hld : m ≤ ldc) (i j : Int) (hi0 : 0 ≤ i) (hi : i < m) (hj0 : 0 ≤ j) (hj : j < n) :
    gemm m n k alpha bufA A lda bufB B ldb beta bufC C ldc (C + (i + j * ldc))
      = alpha * gemmDot k bufA A lda bufB B ldb i j + beta * bufC (C + (i + j * ldc)) :=
  (forLoop_update_block m n ldc C
    (fun i j old => alpha * gemmDot k bufA A lda bufB B ldb i j + beta * old) bufC hld).1
    i j hi0 hi hj0 hj

/-- The kernel leaves everything outside the `m`-by-`n` block as it was. -/
theorem gemm_frame {R : Type} [CommRing R] (m n k : Int) (alpha : R) (bufA : Int → R)
    (A lda : Int) (bufB : Int → R) (B ldb : Int) (beta : R) (bufC : Int → R) (C ldc : Int)
    (hld : m ≤ ldc) (e : Int)
    (he : ∀ i j : Int, 0 ≤ i → i < m → 0 ≤ j → j < n → e ≠ C + (i + j * ldc)) :
    gemm m n k alpha bufA A lda bufB B ldb beta bufC C ldc e = bufC e :=
  (forLoop_update_block m n ldc C
    (fun i j old => alpha * gemmDot k bufA A lda bufB B ldb i j + beta * old) bufC hld).2 e he

/-! ## The tiles refine the single call -/

/-- The inner product of a tile is the inner product of the whole problem at the
corresponding row and column. -/
theorem gemmDot_tile {R : Type} [CommRing R] (k : Int) (bufA : Int → R) (dA lda : Int)
    (bufB : Int → R) (dB ldb : Int) (ti tj a b : Int) :
    gemmDot k bufA (dA + ti * k) lda bufB (dB + tj * k * ldb) ldb a b
      = gemmDot k bufA dA lda bufB dB ldb (ti * k + a) (tj * k + b) := by
  unfold gemmDot
  congr 1
  funext l acc
  have e1 : dA + ti * k + (a + l * lda) = dA + (ti * k + a + l * lda) := by ring
  have e2 : dB + tj * k * ldb + (l + b * ldb) = dB + (l + (tj * k + b) * ldb) := by ring
  rw [e1, e2]

theorem tile_index_unique (mt q p idx : Nat) (hq : q < mt) (h : q + p * mt = idx) :
    idx % mt = q ∧ idx / mt = p := by
  subst h
  have hpos : 0 < mt := Nat.lt_of_le_of_lt (Nat.zero_le _) hq
  exact ⟨by rw [Nat.add_mul_mod_self_right]; exact Nat.mod_eq_of_lt hq,
    by rw [Nat.add_mul_div_right _ _ hpos, Nat.div_eq_of_lt hq, Nat.zero_add]⟩

/-- Running the kernel on a tile that has not been run yet adds this tile to the tiles
done. -/
theorem tilesDone_step {R : Type} [CommRing R] (mt nt : Nat) (k : Int) (hk : 0 < k) (alpha : R)
    (bufA : Int → R) (dA lda : Int) (bufB : Int → R) (dB ldb : Int) (beta : R)
    (bufC : Int → R) (dC ldc : Int) (hld : (mt : Int) * k ≤ ldc) (D : Nat → Prop)
    (cur : Int → R) (ti tj : Nat) (hti : ti < mt) (htj : tj < nt) (hD : ¬ D (ti + tj * mt))
    (hinv : TilesDone mt nt k alpha bufA dA lda bufB dB ldb beta bufC dC ldc D cur) :
    TilesDone mt nt k alpha bufA dA lda bufB dB ldb beta bufC dC ldc
      (fun x => x = ti + tj * mt ∨ D x)
      (gemm k k k alpha bufA (dA + (ti : Int) * k) lda bufB (dB + (tj : Int) * k * ldb) ldb beta
        cur (dC + ((ti : Int) * k + (tj : Int) * k * ldc)) ldc) := by
  obtain ⟨ha, hb⟩ := hinv
  have hti' : (ti : Int) < mt := by exact_mod_cast hti
  have htj' : (tj : Int) < nt := by exact_mod_cast htj
  have hti0 : (0 : Int) ≤ ti := Int.natCast_nonneg ti
  have htj0 : (0 : Int) ≤ tj := Int.natCast_nonneg tj
  have hkld : k ≤ ldc := by nlinarith
  have hrow : ∀ a : Int, 0 ≤ a → a < k → 0 ≤ (ti : Int) * k + a ∧ (ti : Int) * k + a < mt * k := by
    intro a ha0 hak
    constructor <;> nlinarith
  have hcol : ∀ b : Int, 0 ≤ b → b < k → 0 ≤ (tj : Int) * k + b ∧ (tj : Int) * k + b < nt * k := by
    intro b hb0 hbk
    constructor <;> nlinarith
  constructor
  · intro i j hi0 hi hj0 hj
    have hik0 : 0 ≤ i / k := Int.ediv_nonneg hi0 hk.le
    have hik : i / k < mt := Int.ediv_lt_of_lt_mul hk hi
    have hjk0 : 0 ≤ j / k := Int.ediv_nonneg hj0 hk.le
    have hjk : j / k < nt := Int.ediv_lt_of_lt_mul hk hj
    by_cases hT : (i / k).toNat + (j / k).toNat * mt = ti + tj * mt
    · have hq : (i / k).toNat < mt := by omega
      obtain ⟨e1, e2⟩ := tile_index_unique mt (i / k).toNat (j / k).toNat _ hq hT
      obtain ⟨e3, e4⟩ := tile_index_unique mt ti tj _ hti rfl
      have eti : (ti : Int) = i / k := by
        have : ti = (i / k).toNat := by rw [← e3, e1]
        omega
      have etj : (tj : Int) = j / k := by
        have : tj = (j / k).toNat := by rw [← e4, e2]
        omega
      have hi_eq : i = (ti : Int) * k + i % k := by
        rw [eti]; have := Int.ediv_add_emod i k; linarith [mul_comm k (i / k)]
      have hj_eq : j = (tj : Int) * k + j % k := by
        rw [etj]; have := Int.ediv_add_emod j k; linarith [mul_comm k (j / k)]
      have haddr : dC + (i + j * ldc)
          = (dC + ((ti : Int) * k + (tj : Int) * k * ldc)) + (i % k + (j % k) * ldc) := by
        linear_combination hi_eq + ldc * hj_eq
      refine ⟨fun _ => ?_, fun hnot => absurd (Or.inl hT) hnot⟩
      have hold : cur (dC + (i + j * ldc)) = bufC (dC + (i + j * ldc)) :=
        (ha i j hi0 hi hj0 hj).2 (by rw [hT]; exact hD)
      rw [haddr, gemm_entry k k k alpha bufA _ lda bufB _ ldb beta cur _ ldc hkld (i % k) (j % k)
        (Int.emod_nonneg _ (ne_of_gt hk)) (Int.emod_lt_of_pos _ hk)
        (Int.emod_nonneg _ (ne_of_gt hk)) (Int.emod_lt_of_pos _ hk),
        gemmDot_tile, ← hi_eq, ← hj_eq, ← haddr, hold]
    · have hframe : gemm k k k alpha bufA (dA + (ti : Int) * k) lda bufB
          (dB + (tj : Int) * k * ldb) ldb beta cur
          (dC + ((ti : Int) * k + (tj : Int) * k * ldc)) ldc (dC + (i + j * ldc))
          = cur (dC + (i + j * ldc)) := by
        apply gemm_frame _ _ _ _ _ _ _ _ _ _ _ _ _ _ hkld
        intro a b ha0 hak hb0 hbk heq
        apply hT
        obtain ⟨r1, r2⟩ := hrow a ha0 hak
        obtain ⟨e1, e2⟩ := colMajor_inj ldc i j ((ti : Int) * k + a) ((tj : Int) * k + b)
          hi0 r1 (by omega) (by omega) (by linear_combination heq)
        have d1 := (tile_div k ti a ha0 hak).1
        have d2 := (tile_div k tj b hb0 hbk).1
        rw [← e1] at d1
        rw [← e2] at d2
        rw [d1, d2, Int.toNat_natCast, Int.toNat_natCast]
      rw [hframe]
      refine ⟨fun h => ?_, fun h => (ha i j hi0 hi hj0 hj).2 (fun hd => h (Or.inr hd))⟩
      rcases h with h | h
      · exact absurd h hT
      · exact (ha i j hi0 hi hj0 hj).1 h
  · intro e he
    rw [gemm_frame _ _ _ _ _ _ _ _ _ _ _ _ _ _ hkld]
    · exact hb e he
    · intro a b ha0 hak hb0 hbk heq
      obtain ⟨r1, r2⟩ := hrow a ha0 hak
      obtain ⟨c1, c2⟩ := hcol b hb0 hbk
      exact he _ _ r1 r2 c1 c2 (by rw [heq]; ring)

theorem tilesDone_congr {R : Type} [CommRing R] (mt nt : Nat) (k : Int) (alpha : R)
    (bufA : Int → R) (dA lda : Int) (bufB : Int → R) (dB ldb : Int) (beta : R)
    (bufC : Int → R) (dC ldc : Int) (D D' : Nat → Prop) (cur : Int → R)
    (h : ∀ x, D x ↔ D' x)
    (hinv : TilesDone mt nt k alpha bufA dA lda bufB dB ldb beta bufC dC ldc D cur) :
    TilesDone mt nt k alpha bufA dA lda bufB dB ldb beta bufC dC ldc D' cur := by
  have : D = D' := funext (fun x => propext (h x))
  rw [← this]
  exact hinv

/-- Running the batch items of a duplicate-free list of tiles that have not been run yet, in
the order of the list, succeeds and adds exactly these tiles to the tiles done. -/
theorem gemmItems_tilesDone {R : Type} [CommRing R] (mt nt : Nat) (k : Int) (hk : 0 < k)
    (alpha : R) (bufA : Int → R) (dA lda : Int) (bufB : Int → R) (dB ldb : Int) (beta : R)
    (bufC : Int → R) (dC ldc : Int) (hld : (mt : Int) * k ≤ ldc) :
    ∀ (l : List Nat) (D : Nat → Prop) (cur : Int → R),
      (∀ idx ∈ l, idx < nt * mt) → l.Nodup → (∀ idx ∈ l, ¬ D idx) →
      TilesDone mt nt k alpha bufA dA lda bufB dB ldb beta bufC dC ldc D cur →
      ∃ fin : Int → R,
        gemmItems k alpha bufA lda bufB ldb beta ldc
          (buildPtrArrays mt nt k ldb ldc dA dB dC PtrArrays.empty) l cur = some fin
        ∧ TilesDone mt nt k alpha bufA dA lda bufB dB ldb beta bufC dC ldc
            (fun x => x ∈ l ∨ D x) fin := by
  intro l
  induction l with
  | nil =>
    intro D cur _ _ _ hinv
    refine ⟨cur, rfl, ?_⟩
    exact tilesDone_congr mt nt k alpha bufA dA lda bufB dB ldb beta bufC dC ldc D _ cur
      (fun x => by simp) hinv
  | cons idx l ih =>
    intro D cur hlt hnd hD hinv
    have hidx : idx < nt * mt := hlt idx (List.mem_cons_self _ _)
    have hmt : 0 < mt := by
      rcases Nat.eq_zero_or_pos mt with h | h
      · subst h; simp at hidx
      · exact h
    have hti : idx % mt < mt := Nat.mod_lt _ hmt
    have htj : idx / mt < nt := by
      apply Nat.div_lt_of_lt_mul
      rw [Nat.mul_comm]; exact hidx
    have hsum : idx % mt + idx / mt * mt = idx := by
      rw [Nat.mul_comm]; exact Nat.mod_add_div idx mt
    obtain ⟨gA, gB, gC⟩ := buildPtrArrays_getIdx mt nt k ldb ldc dA dB dC idx hidx
    have hstep := tilesDone_step mt nt k hk alpha bufA dA lda bufB dB ldb beta bufC dC ldc hld
      D cur (idx % mt) (idx / mt) hti htj
      (by rw [hsum]; exact hD idx (List.mem_cons_self _ _)) hinv
    rw [hsum] at hstep
    obtain ⟨hnotin, hnd'⟩ := List.nodup_cons.mp hnd
    obtain ⟨fin, hfin, hdone⟩ := ih (fun x => x = idx ∨ D x) _
      (fun x hx => hlt x (List.mem_cons_of_mem _ hx)) hnd'
      (fun x hx h => by
        rcases h with h | h
        · exact hnotin (h ▸ hx)
        · exact hD x (List.mem_cons_of_mem _ hx) h) hstep
    refine ⟨fin, ?_, ?_⟩
    · unfold gemmItems at hfin ⊢
      rw [List.foldlM_cons]
      simp only [gemmItem, gA, gB, gC]
      exact hfin
    · refine tilesDone_congr mt nt k alpha bufA dA lda bufB dB ldb beta bufC dC ldc _ _ fin
        (fun x => ?_) hdone
      simp only [List.mem_cons]
      tauto

/-- The batch items of all `mt*nt` tiles, in any order, leave the C buffer as one kernel
call on the whole `mt*k`-by-`nt*k` problem does. -/
theorem gemmItems_eq_gemm {R : Type} [CommRing R] (mt nt : Nat) (k : Int) (hk : 0 < k)
    (alpha : R) (bufA : Int → R) (dA lda : Int) (bufB : Int → R) (dB ldb : Int) (beta : R)
    (bufC : Int → R) (dC ldc : Int) (hld : (mt : Int) * k ≤ ldc) (order : List Nat)
    (hperm : order.Perm (List.range (nt * mt))) :
    gemmItems k alpha bufA lda bufB ldb beta ldc
        (buildPtrArrays mt nt k ldb ldc dA dB dC PtrArrays.empty) order bufC
      = some (gemm (mt * k) (nt * k) k alpha bufA dA lda bufB dB ldb beta bufC dC ldc) := by
  have hinit : TilesDone mt nt k alpha bufA dA lda bufB dB ldb beta bufC dC ldc
      (fun _ => False) bufC :=
    ⟨fun i j _ _ _ _ => ⟨fun h => h.elim, fun _ => rfl⟩, fun e _ => rfl⟩
  obtain ⟨fin, hfin, hdone, hout⟩ := gemmItems_tilesDone mt nt k hk alpha bufA dA lda bufB dB ldb
    beta bufC dC ldc hld order (fun _ => False) bufC
    (fun idx h => List.mem_range.mp (hperm.mem_iff.mp h))
    (hperm.nodup_iff.mpr (List.nodup_range _)) (fun _ _ h => h) hinit
  rw [hfin]
  congr 1
  funext e
  by_cases h : ∃ i j : Int, 0 ≤ i ∧ i < mt * k ∧ 0 ≤ j ∧ j < nt * k ∧ e = dC + (i + j * ldc)
  · obtain ⟨i, j, hi0, hi, hj0, hj, rfl⟩ := h
    rw [gemm_entry _ _ _ _ _ _ _ _ _ _ _ _ _ _ hld i j hi0 hi hj0 hj]
    apply (hdone i j hi0 hi hj0 hj).1
    left
    apply hperm.mem_iff.mpr
    rw [List.mem_range]
    have hik0 : 0 ≤ i / k := Int.ediv_nonneg hi0 hk.le
    have hik : i / k < mt := Int.ediv_lt_of_lt_mul hk hi
    have hjk0 : 0 ≤ j / k := Int.ediv_nonneg hj0 hk.le
    have hjk : j / k < nt := Int.ediv_lt_of_lt_mul hk hj
    have h1 : (i / k).toNat < mt := by omega
    have h2 : (j / k).toNat + 1 ≤ nt := by omega
    calc (i / k).toNat + (j / k).toNat * mt < mt + (j / k).toNat * mt := by omega
      _ = ((j / k).toNat + 1) * mt := by ring
      _ ≤ nt * mt := Nat.mul_le_mul_right _ h2
  · have h' : ∀ i j : Int, 0 ≤ i → i < mt * k → 0 ≤ j → j < nt * k → e ≠ dC + (i + j * ldc) :=
      fun i j hi0 hi hj0 hj heq => h ⟨i, j, hi0, hi, hj0, hj, heq⟩
    rw [gemm_frame _ _ _ _ _ _ _ _ _ _ _ _ _ _ hld e h']
    exact hout e h'

theorem le_roundup (x y : Int) (hx : 0 ≤ x) (hy : 0 < y) : x ≤ roundup x y := by
  unfold roundup
  rw [Int.tdiv_eq_ediv (by omega) hy.le]
  have h1 := Int.ediv_add_emod (x + y - 1) y
  have h2 := Int.emod_lt_of_pos (x + y - 1) hy
  have h3 : (x + y - 1) / y * y = y * ((x + y - 1) / y) := mul_comm _ _
  omega

/-- For `x ≥ 0`, `y > 0` the value `roundup x y` is the smallest multiple of `y` that is at
least `x`. -/
theorem roundup_least (x y : Int) (hx : 0 ≤ x) (hy : 0 < y) :
    y ∣ roundup x y ∧ x ≤ roundup x y ∧ ∀ z : Int, y ∣ z → x ≤ z → roundup x y ≤ z := by
  refine ⟨Dvd.intro_left _ rfl, le_roundup x y hx hy, ?_⟩
  rintro z ⟨q, rfl⟩ hxz
  unfold roundup
  rw [Int.tdiv_eq_ediv (by omega) hy.le, mul_comm y q]
  apply mul_le_mul_of_nonneg_right _ hy.le
  have h : (x + y - 1) / y < q + 1 := by
    apply Int.ediv_lt_of_lt_mul hy
    nlinarith
  omega

/-- C3: with the single-call kernel as the reference `C := alpha*A*B + beta*C` over exact
arithmetic, for a tile size `k > 0`, dimensions `m, n ≥ 0` that are multiples of `k` and the
leading dimensions of the test (alignment `> 0`), running the `k`-by-`k`-by-`k` kernel once on
each of the `mt*nt` tile triples built by the test, in any order, yields the same C buffer as
one kernel call with dimensions `(m, n, k)` on the same buffers and leading dimensions. -/
theorem schur_tiles_refine_gemm {R : Type} [CommRing R] (m n k align : Int) (hk : 0 < k)
    (hm0 : 0 ≤ m) (hn0 : 0 ≤ n) (hm : k ∣ m) (hn : k ∣ n) (halign : 0 < align)
    (alpha beta : R) (bufA bufB bufC : Int → R) (dA dB dC : Int)
    (g : SchurGeometry) (hg : tileGeometry m n k align = some g)
    (order : List Nat) (hperm : order.Perm (List.range g.batch.toNat)) :
    gemmItems k alpha bufA g.lda_ bufB g.ldb_ beta g.ldc_
        (buildPtrArrays g.mt g.nt k g.ldb_ g.ldc_ dA dB dC PtrArrays.empty) order bufC
      = some (gemm m n k alpha bufA dA g.lda_ bufB dB g.ldb_ beta bufC dC g.ldc_) := by
  obtain ⟨g', hg', _, _, hmt, hnt, hb, _, _, hldc, _⟩ :=
    tileGeometry_some m n k align (ne_of_gt hk)
  have hgg : g' = g := Option.some.inj (hg'.symm.trans hg)
  subst hgg
  obtain ⟨mt, rfl⟩ := hm
  obtain ⟨nt, rfl⟩ := hn
  have hk0 : k ≠ 0 := ne_of_gt hk
  have hmt0 : 0 ≤ mt := by
    by_contra h
    have : k * mt < 0 := mul_neg_of_pos_of_neg hk (by omega)
    omega
  have hnt0 : 0 ≤ nt := by
    by_contra h
    have : k * nt < 0 := mul_neg_of_pos_of_neg hk (by omega)
    omega
  obtain ⟨a, rfl⟩ := Int.eq_ofNat_of_zero_le hmt0
  obtain ⟨b, rfl⟩ := Int.eq_ofNat_of_zero_le hnt0
  rw [Int.mul_tdiv_cancel_left _ hk0] at hmt hnt
  have hbatch : g'.batch.toNat = b * a := by
    rw [hb, hmt, hnt]
    have : ((a : Int) * (b : Int)) = ((b * a : Nat) : Int) := by push_cast; ring
    rw [this, Int.toNat_natCast]
  rw [hbatch] at hperm
  have hld : (a : Int) * k ≤ g'.ldc_ := by
    rw [hldc, mul_comm]
    exact le_roundup _ _ hm0 halign
  have key := gemmItems_eq_gemm a b k hk alpha bufA dA g'.lda_ bufB dB g'.ldb_ beta bufC dC
    g'.ldc_ hld order hperm
  rw [hmt, hnt, mul_comm k (a : Int), mul_comm k (b : Int)]
  exact key

theorem schur_tiles_refine_gemm_witness :
    ∃ g : SchurGeometry, tileGeometry 2 4 2 1 = some g
      ∧ gemmItems 2 (3 : Int) (fun e => e) g.lda_ (fun e => e + 1) g.ldb_ 5 g.ldc_
          (buildPtrArrays g.mt g.nt 2 g.ldb_ g.ldc_ 0 0 0 PtrArrays.empty) [1, 0] (fun e => 2 * e)
        = some (gemm 2 4 2 (3 : Int) (fun e => e) 0 g.lda_ (fun e => e + 1) 0 g.ldb_ 5
            (fun e => 2 * e) 0 g.ldc_) := by
  obtain ⟨g, hg, _, _, hmt, hnt, hb, _⟩ := tileGeometry_some 2 4 2 1 (by decide)
  have hbatch : g.batch.toNat = 2 := by rw [hb, hmt, hnt]; decide
  exact ⟨g, hg, schur_tiles_refine_gemm 2 4 2 1 (by decide) (by decide) (by decide) (by decide)
    (by decide) (by decide) 3 5 _ _ _ 0 0 0 g hg [1, 0] (by rw [hbatch]; decide)⟩

/-! ## The batch dispatch engine -/

/-- C8: a call of the batched gemm entry point in which some per-item parameter array
(transA, transB, m, n, k, lda, ldb, ldc, alpha, beta) has a length that is neither 1 nor the
batch count is rejected with an error, and the device state is the one before the call
whatever the launches would do: no device work is issued. -/
theorem batch_gemm_rejects_bad_length {R σ : Type} (argCheck : BatchGemmArgs R → Bool)
    (launch : BatchGemmArgs R → Int → σ → σ) (a : BatchGemmArgs R) (st : σ)
    (h : ∃ len ∈ [a.transA.size, a.transB.size, a.m.size, a.n.size, a.k.size, a.ldda.size,
        a.lddb.size, a.lddc.size, a.alpha.size, a.beta.size],
      (len : Int) ≠ 1 ∧ (len : Int) ≠ a.batch) :
    batch.gemm argCheck launch a st = (Except.error Error.blasError, st) := by
  have hv : lengthsValid a = false := by
    obtain ⟨len, hmem, h1, h2⟩ := h
    simp only [List.mem_cons, List.mem_singleton, List.not_mem_nil, or_false] at hmem
    rcases hmem with rfl | rfl | rfl | rfl | rfl | rfl | rfl | rfl | rfl | rfl <;>
      simp [lengthsValid, h1, h2]
  simp [batch.gemm, hv]

theorem batch_gemm_rejects_bad_length_witness :
    batch.gemm (fun _ => true) (fun _ _ (s : Nat) => s + 1)
        { schurBatchArgs 2 2 4 8 4 8 (1 : Int) 0 0 0 0 with alpha := #[1, 1, 1] } 0
      = (Except.error Error.blasError, 0) :=
  batch_gemm_rejects_bad_length _ _ _ 0 ⟨3, by simp [schurBatchArgs], by decide, by
    simp [schurBatchArgs]⟩

/-! ## `geru` -/

theorem forLoop_succ {σ : Type} (c : Nat) (body : Int → σ → σ) (s : σ) :
    forLoop ((c + 1 : Nat) : Int) body s = body c (forLoop (c : Int) body s) := by
  unfold forLoop
  simp [List.range_succ, List.foldl_append]

theorem forLoop_toNat {σ : Type} (n : Int) (body : Int → σ → σ) (s : σ) :
    forLoop ((n.toNat : Nat) : Int) body s = forLoop n body s := by
  unfold forLoop
  rw [Int.toNat_natCast]

/-- A loop that carries a running index `c`, advanced by `inc` in every iteration, next to
its state: the index in iteration `j` is `c0 + j*inc`. -/
theorem forLoop_counter {σ : Type} (n : Int) (F : Int → Int → σ → σ) (inc c0 : Int) (s0 : σ) :
    (forLoop n (fun j (s : σ × Int) => (F j s.2 s.1, s.2 + inc)) (s0, c0)).1
      = forLoop n (fun j s => F j (c0 + j * inc) s) s0 := by
  have key := forLoop_inv
    (fun (c : Nat) (s : σ × Int) =>
      s = (forLoop (c : Int) (fun j s => F j (c0 + j * inc) s) s0, c0 + (c : Int) * inc))
    n (fun j (s : σ × Int) => (F j s.2 s.1, s.2 + inc)) (s0, c0)
    (by simp [forLoop]) ?_
  · rw [key, forLoop_toNat]
  · intro c s _ hs
    rw [hs, forLoop_succ]
    refine Prod.ext rfl ?_
    push_cast
    ring

theorem geruCheck_ok (layout : Layout) (m n incx incy lda : Int)
    (hl : layout = Layout.ColMajor ∨ layout = Layout.RowMajor) (hm : 0 ≤ m) (hn : 0 ≤ n)
    (hincx : incx ≠ 0) (hincy : incy ≠ 0)
    (hlda : if layout = Layout.ColMajor then m ≤ lda else n ≤ lda) :
    geruCheck layout m n incx incy lda = Except.ok () := by
  have h1 : ¬ m < 0 := by omega
  have h2 : ¬ n < 0 := by omega
  rcases hl with rfl | rfl
  · have h3 : ¬ lda < m := by simpa using hlda
    simp [geruCheck, blas_error_if, h1, h2, h3, hincx, hincy, bind, Except.bind]
  · have h3 : ¬ lda < n := by simpa using hlda
    simp [geruCheck, blas_error_if, h1, h2, h3, hincx, hincy, bind, Except.bind]

/-- The three loop nests of `geru` perform the same update: entry `(i, j)` is increased by
`x[kx + i*incx] * (alpha * y[jy + j*incy])`, with the start indices `kx`, `jy` of the
general-stride path. -/
theorem geruLoops_eq {R : Type} [CommRing R] (m n : Int) (alpha : R) (x : Int → R)
    (incx : Int) (y : Int → R) (incy : Int) (A : Int → R) (lda : Int) :
    geruLoops m n alpha x incx y incy A lda
      = forLoop n (fun j A => forLoop m (fun i A =>
          Function.update A (0 + (i + j * lda))
            (A (0 + (i + j * lda))
              + x ((if incx > 0 then 0 else (-m + 1) * incx) + i * incx)
                * (alpha * y ((if incy > 0 then 0 else (-n + 1) * incy) + j * incy)))) A) A := by
  unfold geruLoops
  by_cases h1 : incx = 1 ∧ incy = 1
  · obtain ⟨hx, hy⟩ := h1
    subst hx hy
    simp
  · rw [if_neg h1]
    by_cases h2 : incx = 1
    · subst h2
      rw [if_pos rfl]
      have key := forLoop_counter n
        (fun j c (A : Int → R) => forLoop m (fun i A =>
          Function.update A (i + j * lda) (A (i + j * lda) + x i * (alpha * y c))) A)
        incy (if incy > 0 then 0 else (-n + 1) * incy) A
      simp only [] at key ⊢
      rw [key]
      simp
    · rw [if_neg h2]
      have inner : ∀ (j c : Int) (B : Int → R),
          (forLoop m (fun i (t : (Int → R) × Int) =>
            (Function.update t.1 (i + j * lda) (t.1 (i + j * lda) + x t.2 * (alpha * y c)),
              t.2 + incx)) (B, if incx > 0 then 0 else (-m + 1) * incx)).1
          = forLoop m (fun i A => Function.update A (i + j * lda)
              (A (i + j * lda)
                + x ((if incx > 0 then 0 else (-m + 1) * incx) + i * incx) * (alpha * y c))) B :=
        fun j c B => forLoop_counter m
          (fun i c' (A : Int → R) =>
            Function.update A (i + j * lda) (A (i + j * lda) + x c' * (alpha * y c)))
          incx (if incx > 0 then 0 else (-m + 1) * incx) B
      have key := forLoop_counter n
        (fun j c (A : Int → R) => forLoop m (fun i A => Function.update A (i + j * lda)
              (A (i + j * lda)
                + x ((if incx > 0 then 0 else (-m + 1) * incx) + i * incx) * (alpha * y c))) A)
        incy (if incy > 0 then 0 else (-n + 1) * incy) A
      simp only [inner] at key ⊢
      rw [key]
      simp

/-- The element of a strided vector that the general-stride path of `geru` reads in
iteration `i` is `x[i*incx]` for a positive increment and `x[(m-1-i)*|incx|]` for a
negative one. -/
theorem strided_index {R : Type} (m incx i : Int) (x : Int → R) (h : incx ≠ 0) :
    x ((if incx > 0 then 0 else (-m + 1) * incx) + i * incx)
      = if incx > 0 then x (i * incx) else x ((m - 1 - i) * |incx|) := by
  by_cases hp : incx > 0
  · simp [hp]
  · have hneg : incx < 0 := by omega
    rw [if_neg hp, if_neg hp, abs_of_neg hneg]
    congr 1
    ring

/-- The loop nests of `geru` on a matrix with `m ≤ lda`: every entry `(i, j)` of the matrix is
increased by `alpha * x_i * y_j`, and nothing else changes. -/
theorem geruLoops_spec {R : Type} [CommRing R] (m n : Int) (alpha : R) (x : Int → R)
    (incx : Int) (y : Int → R) (incy : Int) (A : Int → R) (lda : Int)
    (hincx : incx ≠ 0) (hincy : incy ≠ 0) (hlda : m ≤ lda) :
    (∀ i j : Int, 0 ≤ i → i < m → 0 ≤ j → j < n →
      geruLoops m n alpha x incx y incy A lda (i + j * lda)
        = A (i + j * lda)
          + alpha * (if incx > 0 then x (i * incx) else x ((m - 1 - i) * |incx|))
            * (if incy > 0 then y (j * incy) else y ((n - 1 - j) * |incy|)))
    ∧ (∀ e : Int, (∀ i j : Int, 0 ≤ i → i < m → 0 ≤ j → j < n → e ≠ i + j * lda) →
      geruLoops m n alpha x incx y incy A lda e = A e) := by
  obtain ⟨h1, h2⟩ := forLoop_update_block m n lda 0
    (fun i j old => old + x ((if incx > 0 then 0 else (-m + 1) * incx) + i * incx)
      * (alpha * y ((if incy > 0 then 0 else (-n + 1) * incy) + j * incy))) A hlda
  rw [geruLoops_eq]
  constructor
  · intro i j hi0 hi hj0 hj
    have := h1 i j hi0 hi hj0 hj
    rw [zero_add] at this
    rw [this, strided_index m incx i x hincx, strided_index n incy j y hincy]
    ring
  · intro e he
    exact h2 e (fun i j hi0 hi hj0 hj => by rw [zero_add]; exact he i j hi0 hi hj0 hj)

/-- C9: generic `geru` computes `A = alpha*x*y^T + A`.  For `ColMajor` and every valid call
(`m, n ≥ 0`, `incx ≠ 0`, `incy ≠ 0`, `lda ≥ m`) over exact arithmetic the call returns, with
`A[i + j*lda] = A_old[i + j*lda] + alpha * x_i * y_j` for `0 ≤ i < m`, `0 ≤ j < n`, where `x_i`
is `x[i*incx]` for `incx > 0` and `x[(m-1-i)*|incx|]` for `incx < 0`, and `y_j` likewise; every
other entry of the array `A` is unchanged (`x` and `y` are read only).  The statement covers
the unit-stride, the unit-`incx` and the general-stride path. -/
theorem geru_colMajor {R : Type} [CommRing R] [DecidableEq R] (m n : Int) (alpha : R)
    (x : Int → R) (incx : Int) (y : Int → R) (incy : Int) (A : Int → R) (lda : Int)
    (hm : 0 ≤ m) (hn : 0 ≤ n) (hincx : incx ≠ 0) (hincy : incy ≠ 0) (hlda : m ≤ lda) :
    ∃ A' : Int → R, geru Layout.ColMajor m n alpha x incx y incy A lda = Except.ok A'
      ∧ (∀ i j : Int, 0 ≤ i → i < m → 0 ≤ j → j < n →
          A' (i + j * lda)
            = A (i + j * lda)
              + alpha * (if incx > 0 then x (i * incx) else x ((m - 1 - i) * |incx|))
                * (if incy > 0 then y (j * incy) else y ((n - 1 - j) * |incy|)))
      ∧ (∀ e : Int, (∀ i j : Int, 0 ≤ i → i < m → 0 ≤ j → j < n → e ≠ i + j * lda) →
          A' e = A e) := by
  have hc := geruCheck_ok Layout.ColMajor m n incx incy lda (Or.inl rfl) hm hn hincx hincy
    (by simpa using hlda)
  rw [geru]
  simp only [hc, bind, Except.bind]
  by_cases hq : m = 0 ∨ n = 0 ∨ alpha = 0
  · rw [if_pos hq]
    refine ⟨A, rfl, ?_, fun e _ => rfl⟩
    intro i j hi0 hi hj0 hj
    rcases hq with h | h | h
    · omega
    · omega
    · rw [h]; ring
  · rw [if_neg hq, dif_neg (by decide)]
    obtain ⟨h1, h2⟩ := geruLoops_spec m n alpha x incx y incy A lda hincx hincy hlda
    exact ⟨_, rfl, h1, h2⟩

theorem geru_colMajor_witness :
    ∃ A' : Int → Int, geru Layout.ColMajor 2 3 2 (fun e => e + 1) (-1) (fun e => e) 2
        (fun _ => 0) 4 = Except.ok A'
      ∧ A' (1 + 2 * 4) = 0 + 2 * 1 * 4 := by
  obtain ⟨A', h, h1, _⟩ := geru_colMajor 2 3 (2 : Int) (fun e => e + 1) (-1) (fun e => e) 2
    (fun _ => 0) 4 (by decide) (by decide) (by decide) (by decide) (by decide)
  refine ⟨A', h, ?_⟩
  have := h1 1 2 (by decide) (by decide) (by decide) (by decide)
  simpa using this

/-- The conversion to the native integer type keeps a value that is in its range. -/
theorem toBlasInt_eq (w : Nat) (z : Int) (hw : 1 ≤ w) (h0 : -2 ^ (w - 1) ≤ z)
    (h1 : z < 2 ^ (w - 1)) : toBlasInt w z = z := by
  unfold toBlasInt
  have hpow : (2 : Int) ^ w = 2 * 2 ^ (w - 1) := by
    rw [← pow_succ']; congr 1; omega
  rw [Int.emod_eq_of_lt (by omega) (by omega)]
  omega

theorem geruOverflowCheck_ok (w : Nat) (m n incx incy lda : Int)
    (h : w < 64 → m ≤ 2 ^ (w - 1) - 1 ∧ n ≤ 2 ^ (w - 1) - 1 ∧ lda ≤ 2 ^ (w - 1) - 1
      ∧ |incx| ≤ 2 ^ (w - 1) - 1 ∧ |incy| ≤ 2 ^ (w - 1) - 1) :
    geruOverflowCheck w m n incx incy lda = Except.ok () := by
  unfold geruOverflowCheck
  by_cases hw : w < 64
  · obtain ⟨h1, h2, h3, h4, h5⟩ := h hw
    have hp : (2 : Int) ^ (w - 1) ≤ 2 ^ 63 := pow_le_pow_right₀ (by norm_num) (by omega)
    have e4 : stdAbs incx = |incx| :=
      toBlasInt_eq 64 _ (by decide) (by have := abs_nonneg incx; norm_num; omega)
        (by norm_num; omega)
    have e5 : stdAbs incy = |incy| :=
      toBlasInt_eq 64 _ (by decide) (by have := abs_nonneg incy; norm_num; omega)
        (by norm_num; omega)
    simp [hw, blas_error_if, not_lt.mpr h1, not_lt.mpr h2, not_lt.mpr h3, not_lt.mpr h4,
      not_lt.mpr h5, e4, e5, bind, Except.bind]
  · simp [hw, pure, Except.pure]

/-- C10: row-major `geru` swaps dimensions and operands instead of transposing.  For every
valid row-major call (`m, n ≥ 0`, `incx, incy ≠ 0`, `lda ≥ n`) the generic
`geru(RowMajor, m, n, alpha, x, incx, y, incy, A, lda)` is
`geru(ColMajor, n, m, alpha, y, incy, x, incx, A, lda)`, it returns, and the array it leaves
has `A[i*lda + j] = A_old[i*lda + j] + alpha * x_i * y_j` for `0 ≤ i < m`, `0 ≤ j < n`; the
complex overloads, when the values fit the native integer type of width `w`, pass
`(n, m, alpha, y, incy, x, incx, A, lda)` to the native kernel for `RowMajor` and
`(m, n, alpha, x, incx, y, incy, A, lda)` for `ColMajor` (there with `lda ≥ m`). -/
theorem geru_rowMajor {R : Type} [CommRing R] [DecidableEq R] (w : Nat) (m n : Int) (alpha : R)
    (x : Int → R) (incx : Int) (y : Int → R) (incy : Int) (A : Int → R) (lda : Int)
    (hm : 0 ≤ m) (hn : 0 ≤ n) (hincx : incx ≠ 0) (hincy : incy ≠ 0) (hlda : n ≤ lda)
    (hw : w < 64 → m ≤ 2 ^ (w - 1) - 1 ∧ n ≤ 2 ^ (w - 1) - 1 ∧ lda ≤ 2 ^ (w - 1) - 1
      ∧ |incx| ≤ 2 ^ (w - 1) - 1 ∧ |incy| ≤ 2 ^ (w - 1) - 1) :
    geru Layout.RowMajor m n alpha x incx y incy A lda
      = geru Layout.ColMajor n m alpha y incy x incx A lda
    ∧ (∃ A' : Int → R, geru Layout.RowMajor m n alpha x incx y incy A lda = Except.ok A'
        ∧ ∀ i j : Int, 0 ≤ i → i < m → 0 ≤ j → j < n →
          A' (i * lda + j)
            = A (i * lda + j)
              + alpha * (if incx > 0 then x (i * incx) else x ((m - 1 - i) * |incx|))
                * (if incy > 0 then y (j * incy) else y ((n - 1 - j) * |incy|)))
    ∧ geruComplex w Layout.RowMajor m n alpha x incx y incy A lda
      = Except.ok { m := toBlasInt w n, n := toBlasInt w m, alpha := alpha,
                    x := y, incx := toBlasInt w incy, y := x, incy := toBlasInt w incx,
                    A := A, lda := toBlasInt w lda }
    ∧ (m ≤ lda → geruComplex w Layout.ColMajor m n alpha x incx y incy A lda
      = Except.ok { m := toBlasInt w m, n := toBlasInt w n, alpha := alpha,
                    x := x, incx := toBlasInt w incx, y := y, incy := toBlasInt w incy,
                    A := A, lda := toBlasInt w lda }) := by
  have hcR := geruCheck_ok Layout.RowMajor m n incx incy lda (Or.inr rfl) hm hn hincx hincy
    (by simpa using hlda)
  have hcC := geruCheck_ok Layout.ColMajor n m incy incx lda (Or.inl rfl) hn hm hincy hincx
    (by simpa using hlda)
  have ho := geruOverflowCheck_ok w m n incx incy lda hw
  have hcol : geru Layout.ColMajor n m alpha y incy x incx A lda
      = if n = 0 ∨ m = 0 ∨ alpha = 0 then Except.ok A
        else Except.ok (geruLoops n m alpha y incy x incx A lda) := by
    rw [geru]
    simp only [hcC, bind, Except.bind, pure, Except.pure]
    split_ifs <;> first | rfl | (exfalso; simp_all)
  have hrow : geru Layout.RowMajor m n alpha x incx y incy A lda
      = geru Layout.ColMajor n m alpha y incy x incx A lda := by
    rw [geru]
    simp only [hcR, bind, Except.bind, pure, Except.pure]
    by_cases hq : m = 0 ∨ n = 0 ∨ alpha = 0
    · have hq' : n = 0 ∨ m = 0 ∨ alpha = 0 := by tauto
      rw [if_pos hq, hcol, if_pos hq']
    · rw [if_neg hq, dif_pos trivial]
  refine ⟨hrow, ?_, ?_, ?_⟩
  · rw [hrow, hcol]
    by_cases hq : n = 0 ∨ m = 0 ∨ alpha = 0
    · rw [if_pos hq]
      refine ⟨A, rfl, ?_⟩
      intro i j hi0 hi hj0 hj
      rcases hq with h | h | h
      · omega
      · omega
      · rw [h]; ring
    · rw [if_neg hq]
      obtain ⟨h1, _⟩ := geruLoops_spec n m alpha y incy x incx A lda hincy hincx hlda
      refine ⟨_, rfl, ?_⟩
      intro i j hi0 hi hj0 hj
      have := h1 j i hj0 hj hi0 hi
      rw [show i * lda + j = j + i * lda by ring, this]
      ring
  · simp [geruComplex, hcR, ho, bind, Except.bind, pure, Except.pure]
  · intro hlda'
    have hcC' := geruCheck_ok Layout.ColMajor m n incx incy lda (Or.inl rfl) hm hn hincx hincy
      (by simpa using hlda')
    simp [geruComplex, hcC', ho, bind, Except.bind, pure, Except.pure]

theorem geru_rowMajor_witness :
    geru Layout.RowMajor 2 3 (2 : Int) (fun e => e + 1) (-1) (fun e => e) 2 (fun _ => 0) 3
      = geru Layout.ColMajor 3 2 (2 : Int) (fun e => e) 2 (fun e => e + 1) (-1) (fun _ => 0) 3 :=
  (geru_rowMajor 32 2 3 (2 : Int) (fun e => e + 1) (-1) (fun e => e) 2 (fun _ => 0) 3
    (by decide) (by decide) (by decide) (by decide) (by decide)
    (fun _ => by refine ⟨?_, ?_, ?_, ?_, ?_⟩ <;> norm_num)).1

/-! ## Argument checks of `geru` -/

/-- The argument checks of `geru` pass exactly for a legal layout, `m, n ≥ 0`, non-zero
increments and `lda ≥ m` (`ColMajor`) or `lda ≥ n` (`RowMajor`); otherwise `blas::Error` is
thrown. -/
theorem geruCheck_eq (layout : Layout) (m n incx incy lda : Int) :
    geruCheck layout m n incx incy lda
      = if (layout = Layout.ColMajor ∨ layout = Layout.RowMajor) ∧ 0 ≤ m ∧ 0 ≤ n ∧ incx ≠ 0
            ∧ incy ≠ 0 ∧ (if layout = Layout.ColMajor then m ≤ lda else n ≤ lda)
        then Except.ok () else Except.error Error.blasError := by
  by_cases h1 : m < 0 <;> by_cases h2 : n < 0 <;> by_cases h3 : incx = 0 <;>
    by_cases h4 : incy = 0 <;> by_cases h5 : lda < m <;> by_cases h6 : lda < n <;>
    cases layout <;>
    simp [geruCheck, blas_error_if, bind, Except.bind, h1, h2, h3, h4, h5, h6,
      not_le.mpr, not_lt.mp]

/-- C11: `geru`, the generic template as well as the complex overloads, throws for every
call with an illegal layout value, `m < 0`, `n < 0`, `incx = 0` or `incy = 0`, whatever the
other arguments are (also when `m = 0`, `n = 0` or `alpha = 0` would give a quick return): the
call yields the exception and neither an updated array `A` nor a call of the native
kernel. -/
theorem geru_rejects_illegal {R : Type} [CommRing R] [DecidableEq R] (w : Nat)
    (layout : Layout) (m n : Int) (alpha : R) (x : Int → R) (incx : Int) (y : Int → R)
    (incy : Int) (A : Int → R) (lda : Int)
    (h : (layout ≠ Layout.ColMajor ∧ layout ≠ Layout.RowMajor) ∨ m < 0 ∨ n < 0 ∨ incx = 0
      ∨ incy = 0) :
    geru layout m n alpha x incx y incy A lda = Except.error Error.blasError
    ∧ geruComplex w layout m n alpha x incx y incy A lda = Except.error Error.blasError := by
  have hc : geruCheck layout m n incx incy lda = Except.error Error.blasError := by
    rw [geruCheck_eq, if_neg]
    rintro ⟨hl, hm, hn, hx, hy, _⟩
    rcases h with h | h | h | h | h
    · rcases hl with hl | hl
      · exact h.1 hl
      · exact h.2 hl
    · omega
    · omega
    · exact hx h
    · exact hy h
  constructor
  · rw [geru]
    simp [hc, bind, Except.bind]
  · simp [geruComplex, hc, bind, Except.bind]

theorem geru_rejects_illegal_witness :
    geru Layout.ColMajor 0 3 (0 : Int) (fun e => e) 0 (fun e => e) 1 (fun _ => 7) 5
      = Except.error Error.blasError
    ∧ geruComplex 32 Layout.ColMajor 0 3 (0 : Int) (fun e => e) 0 (fun e => e) 1 (fun _ => 7) 5
      = Except.error Error.blasError :=
  geru_rejects_illegal 32 Layout.ColMajor 0 3 (0 : Int) (fun e => e) 0 (fun e => e) 1
    (fun _ => 7) 5 (Or.inr (Or.inr (Or.inr (Or.inl rfl))))

/-- C12 (the code departs from it): the documented requirement is `lda ≥ max(1, m)`
(`RowMajor`: `lda ≥ max(1, n)`), the check is `lda < m` (`lda < n`).  A call with `m = 0` and
`lda = 0` is below the documented bound `max(1, 0) = 1` and is accepted, by the generic
template as well as by the complex overloads, which pass `lda = 0` on to the native
kernel. -/
theorem geru_accepts_lda_zero {R : Type} [CommRing R] [DecidableEq R] (alpha : R)
    (x y A : Int → R) :
    (0 : Int) < max 1 0
    ∧ geru Layout.ColMajor 0 1 alpha x 1 y 1 A 0 = Except.ok A
    ∧ geru Layout.RowMajor 1 0 alpha x 1 y 1 A 0 = Except.ok A
    ∧ geruComplex 32 Layout.ColMajor 0 1 alpha x 1 y 1 A 0
      = Except.ok { m := 0, n := 1, alpha := alpha, x := x, incx := 1, y := y, incy := 1,
                    A := A, lda := 0 }
    ∧ geruComplex 32 Layout.RowMajor 1 0 alpha x 1 y 1 A 0
      = Except.ok { m := 0, n := 1, alpha := alpha, x := y, incx := 1, y := x, incy := 1,
                    A := A, lda := 0 } := by
  have hc1 : geruCheck Layout.ColMajor 0 1 1 1 0 = Except.ok () :=
    geruCheck_ok Layout.ColMajor 0 1 1 1 0 (Or.inl rfl) (by decide) (by decide) (by decide)
      (by decide) (by decide)
  have hc2 : geruCheck Layout.RowMajor 1 0 1 1 0 = Except.ok () :=
    geruCheck_ok Layout.RowMajor 1 0 1 1 0 (Or.inr rfl) (by decide) (by decide) (by decide)
      (by decide) (by decide)
  have ho1 : geruOverflowCheck 32 0 1 1 1 0 = Except.ok () :=
    geruOverflowCheck_ok 32 0 1 1 1 0 (fun _ => by decide)
  have ho2 : geruOverflowCheck 32 1 0 1 1 0 = Except.ok () :=
    geruOverflowCheck_ok 32 1 0 1 1 0 (fun _ => by decide)
  have t0 : toBlasInt 32 0 = 0 := by decide
  have t1 : toBlasInt 32 1 = 1 := by decide
  refine ⟨by decide, ?_, ?_, ?_, ?_⟩
  · rw [geru]; simp [hc1, bind, Except.bind, pure, Except.pure]
  · rw [geru]; simp [hc2, bind, Except.bind, pure, Except.pure]
  · simp [geruComplex, hc1, ho1, t0, t1, bind, Except.bind, pure, Except.pure]
  · simp [geruComplex, hc2, ho2, t0, t1, bind, Except.bind, pure, Except.pure]

/-- C13: for every call of generic `geru` with valid arguments in which `alpha` is zero, or
`m = 0`, or `n = 0`, the call returns the array `A` as it was, and the result is the same
whatever the contents of `x` and `y` are: no element of `x` or `y` enters it. -/
theorem geru_quick_return {R : Type} [CommRing R] [DecidableEq R] (layout : Layout)
    (m n : Int) (alpha : R) (x : Int → R) (incx : Int) (y : Int → R) (incy : Int)
    (A : Int → R) (lda : Int)
    (hl : layout = Layout.ColMajor ∨ layout = Layout.RowMajor) (hm : 0 ≤ m) (hn : 0 ≤ n)
    (hincx : incx ≠ 0) (hincy : incy ≠ 0)
    (hlda : if layout = Layout.ColMajor then m ≤ lda else n ≤ lda)
    (hq : alpha = 0 ∨ m = 0 ∨ n = 0) :
    geru layout m n alpha x incx y incy A lda = Except.ok A
    ∧ ∀ x' y' : Int → R, geru layout m n alpha x' incx y' incy A lda = Except.ok A := by
  have hc := geruCheck_ok layout m n incx incy lda hl hm hn hincx hincy hlda
  have hq' : m = 0 ∨ n = 0 ∨ alpha = 0 := by tauto
  have key : ∀ x' y' : Int → R, geru layout m n alpha x' incx y' incy A lda = Except.ok A := by
    intro x' y'
    rw [geru]
    simp only [hc, bind, Except.bind, pure, Except.pure, if_pos hq']
  exact ⟨key x y, key⟩

theorem geru_quick_return_witness :
    geru Layout.RowMajor 2 3 (0 : Int) (fun e => e) 1 (fun e => e) (-1) (fun e => 5 * e) 3
      = Except.ok (fun e => 5 * e) :=
  (geru_quick_return Layout.RowMajor 2 3 (0 : Int) (fun e => e) 1 (fun e => e) (-1)
    (fun e => 5 * e) 3 (Or.inr rfl) (by decide) (by decide) (by decide) (by decide)
    (by decide) (Or.inl rfl)).1

/-! ## Argument checks of `syrk` -/

/-- The checks of `syrk` on the dimensions and leading dimensions, `b` telling whether `lda`
is compared with `n` or with `k`. -/
theorem syrkCheck_dims (b : Bool) (n k lda ldc : Int) :
    (do
      blas_error_if (n < 0)
      blas_error_if (k < 0)
      if b then
        blas_error_if (lda < n)
      else
        blas_error_if (lda < k)
      blas_error_if (ldc < n) : Except Error Unit)
      = if 0 ≤ n ∧ 0 ≤ k ∧ (if b then n ≤ lda else k ≤ lda) ∧ n ≤ ldc
        then Except.ok () else Except.error Error.blasError := by
  by_cases h1 : n < 0 <;> by_cases h2 : k < 0 <;> by_cases h3 : lda < n <;>
    by_cases h4 : lda < k <;> by_cases h5 : ldc < n <;> cases b <;>
    simp [blas_error_if, bind, Except.bind, h1, h2, h3, h4, h5, not_le.mpr, not_lt.mp]

/-- The argument checks of `syrk` pass exactly for a legal layout and triangle, a legal
operation (`ConjTrans` only in the real overloads), `n, k ≥ 0`, `lda ≥ n` or `lda ≥ k` as
the operation and the layout select, and `ldc ≥ n`; otherwise `blas::Error` is thrown. -/
theorem syrkCheck_eq (complex : Bool) (layout : Layout) (uplo : Uplo) (trans : Op)
    (n k lda ldc : Int) :
    syrkCheck complex layout uplo trans n k lda ldc
      = if (layout = Layout.ColMajor ∨ layout = Layout.RowMajor)
            ∧ (uplo = Uplo.Lower ∨ uplo = Uplo.Upper)
            ∧ (trans = Op.NoTrans ∨ trans = Op.Trans
                ∨ (complex = false ∧ trans = Op.ConjTrans))
            ∧ 0 ≤ n ∧ 0 ≤ k
            ∧ (if xor (decide (trans = Op.NoTrans)) (decide (layout = Layout.RowMajor))
                then n ≤ lda else k ≤ lda)
            ∧ n ≤ ldc
        then Except.ok () else Except.error Error.blasError := by
  unfold syrkCheck
  rw [syrkCheck_dims]
  cases complex <;> cases layout <;> cases uplo <;> cases trans <;>
    simp [blas_error_if, bind, Except.bind]

theorem syrkOverflowCheck_eq (w : Nat) (n k lda ldc : Int) :
    syrkOverflowCheck w n k lda ldc
      = if w < 64 → n ≤ 2 ^ (w - 1) - 1 ∧ k ≤ 2 ^ (w - 1) - 1 ∧ lda ≤ 2 ^ (w - 1) - 1
            ∧ ldc ≤ 2 ^ (w - 1) - 1
        then Except.ok () else Except.error Error.blasError := by
  unfold syrkOverflowCheck
  by_cases hw : w < 64
  · by_cases h1 : n ≤ 2 ^ (w - 1) - 1 <;> by_cases h2 : k ≤ 2 ^ (w - 1) - 1 <;>
      by_cases h3 : lda ≤ 2 ^ (w - 1) - 1 <;> by_cases h4 : ldc ≤ 2 ^ (w - 1) - 1 <;>
      simp [hw, blas_error_if, bind, Except.bind, h1, h2, h3, h4, not_lt.mpr, not_le.mp]
  · simp [hw, pure, Except.pure]

/-- An accepted call of a `syrk` overload: its arguments pass every check, and the native
call is the one built from them. -/
theorem syrkOverload_ok {R : Type} (complex : Bool) (w : Nat) (layout : Layout) (uplo : Uplo)
    (trans : Op) (n k : Int) (alpha : R) (A : Int → R) (lda : Int) (beta : R) (C : Int → R)
    (ldc : Int) (c : SyrkNative R)
    (h : syrkOverload complex w layout uplo trans n k alpha A lda beta C ldc = Except.ok c) :
    ((layout = Layout.ColMajor ∨ layout = Layout.RowMajor)
      ∧ (uplo = Uplo.Lower ∨ uplo = Uplo.Upper)
      ∧ (trans = Op.NoTrans ∨ trans = Op.Trans ∨ (complex = false ∧ trans = Op.ConjTrans))
      ∧ 0 ≤ n ∧ 0 ≤ k
      ∧ (if xor (decide (trans = Op.NoTrans)) (decide (layout = Layout.RowMajor))
          then n ≤ lda else k ≤ lda)
      ∧ n ≤ ldc)
    ∧ (w < 64 → n ≤ 2 ^ (w - 1) - 1 ∧ k ≤ 2 ^ (w - 1) - 1 ∧ lda ≤ 2 ^ (w - 1) - 1
        ∧ ldc ≤ 2 ^ (w - 1) - 1)
    ∧ c = { uplo_ := uplo2char
              (if layout = Layout.RowMajor then rowMajorFlags uplo trans else (uplo, trans)).1,
            trans_ := op2char
              (if layout = Layout.RowMajor then rowMajorFlags uplo trans else (uplo, trans)).2,
            n_ := toBlasInt w n, k_ := toBlasInt w k, alpha := alpha, A := A,
            lda_ := toBlasInt w lda, beta := beta, C := C, ldc_ := toBlasInt w ldc } := by
  have key : ∀ (p q : Prop) [Decidable p] [Decidable q] (r : SyrkNative R),
      ((if p then Except.ok () else Except.error Error.blasError : Except Error Unit) >>=
        fun _ => (if q then Except.ok () else Except.error Error.blasError :
          Except Error Unit) >>= fun _ => (pure r : Except Error (SyrkNative R)))
        = Except.ok c → p ∧ q ∧ c = r := by
    intro p q _ _ r hr
    by_cases hp : p <;> by_cases hq : q <;>
      simp [hp, hq, bind, Except.bind, pure, Except.pure] at hr
    exact ⟨hp, hq, hr.symm⟩
  unfold syrkOverload at h
  rw [syrkCheck_eq, syrkOverflowCheck_eq] at h
  exact key _ _ _ h

/-- A call of a `syrk` overload whose arguments pass every check is accepted. -/
theorem syrkOverload_accept {R : Type} (complex : Bool) (w : Nat) (layout : Layout)
    (uplo : Uplo) (trans : Op) (n k : Int) (alpha : R) (A : Int → R) (lda : Int) (beta : R)
    (C : Int → R) (ldc : Int)
    (h1 : (layout = Layout.ColMajor ∨ layout = Layout.RowMajor)
      ∧ (uplo = Uplo.Lower ∨ uplo = Uplo.Upper)
      ∧ (trans = Op.NoTrans ∨ trans = Op.Trans ∨ (complex = false ∧ trans = Op.ConjTrans))
      ∧ 0 ≤ n ∧ 0 ≤ k
      ∧ (if xor (decide (trans = Op.NoTrans)) (decide (layout = Layout.RowMajor))
          then n ≤ lda else k ≤ lda)
      ∧ n ≤ ldc)
    (h2 : w < 64 → n ≤ 2 ^ (w - 1) - 1 ∧ k ≤ 2 ^ (w - 1) - 1 ∧ lda ≤ 2 ^ (w - 1) - 1
        ∧ ldc ≤ 2 ^ (w - 1) - 1) :
    syrkOverload complex w layout uplo trans n k alpha A lda beta C ldc
      = Except.ok
          { uplo_ := uplo2char
              (if layout = Layout.RowMajor then rowMajorFlags uplo trans else (uplo, trans)).1,
            trans_ := op2char
              (if layout = Layout.RowMajor then rowMajorFlags uplo trans else (uplo, trans)).2,
            n_ := toBlasInt w n, k_ := toBlasInt w k, alpha := alpha, A := A,
            lda_ := toBlasInt w lda, beta := beta, C := C, ldc_ := toBlasInt w ldc } := by
  unfold syrkOverload
  rw [syrkCheck_eq, syrkOverflowCheck_eq, if_pos h1, if_pos h2]
  rfl

/-- A value of `int64_t` that is non-negative and passes the overflow check of width `w`
is kept by the conversion to `blas_int`. -/
theorem toBlasInt_of_checked (w : Nat) (z : Int) (hw1 : 1 ≤ w) (hw2 : w ≤ 64) (h0 : 0 ≤ z)
    (hz : isInt64 z) (h : w < 64 → z ≤ 2 ^ (w - 1) - 1) : toBlasInt w z = z := by
  have hp : (0 : Int) < 2 ^ (w - 1) := by positivity
  apply toBlasInt_eq w z hw1 (by omega)
  by_cases hw : w < 64
  · have := h hw; omega
  · have hw64 : w = 64 := by omega
    subst hw64
    exact hz.2

/-! ## Claims on `syrk` and on the overflow check of `geru` -/

/-- C14 (the code departs from it): the documented requirements are `lda ≥ max(1, n)` resp.
`lda ≥ max(1, k)` and `ldc ≥ max(1, n)`, the checks are `lda < n` resp. `lda < k` and
`ldc < n`.  A call with `n = k = 0` and `lda = ldc = 0` is below the documented bound
`max(1, 0) = 1` and is accepted by the real and by the complex overloads, which pass
`lda = ldc = 0` on to the native kernel. -/
theorem syrk_accepts_ld_zero {R : Type} (alpha beta : R) (A C : Int → R) :
    (0 : Int) < max 1 0
    ∧ syrkReal 32 Layout.ColMajor Uplo.Lower Op.NoTrans 0 0 alpha A 0 beta C 0
      = Except.ok { uplo_ := 'L', trans_ := 'N', n_ := 0, k_ := 0, alpha := alpha, A := A,
                    lda_ := 0, beta := beta, C := C, ldc_ := 0 }
    ∧ syrkComplex 32 Layout.ColMajor Uplo.Lower Op.NoTrans 0 0 alpha A 0 beta C 0
      = Except.ok { uplo_ := 'L', trans_ := 'N', n_ := 0, k_ := 0, alpha := alpha, A := A,
                    lda_ := 0, beta := beta, C := C, ldc_ := 0 } := by
  have t0 : toBlasInt 32 0 = 0 := by decide
  refine ⟨by decide, ?_, ?_⟩
  · unfold syrkReal
    rw [syrkOverload_accept false 32 Layout.ColMajor Uplo.Lower Op.NoTrans 0 0 alpha A 0 beta C 0
      (by decide) (fun _ => by decide), t0]
    rfl
  · unfold syrkComplex
    rw [syrkOverload_accept true 32 Layout.ColMajor Uplo.Lower Op.NoTrans 0 0 alpha A 0 beta C 0
      (by decide) (fun _ => by decide), t0]
    rfl

/-- C15: in the complex case `Op::ConjTrans` is illegal for `syrk`: the complex overloads
throw for every call with `trans = ConjTrans`, whatever the other arguments are, and the
native kernel is not called. -/
theorem syrkComplex_rejects_conjTrans {R : Type} (w : Nat) (layout : Layout) (uplo : Uplo)
    (n k : Int) (alpha : R) (A : Int → R) (lda : Int) (beta : R) (C : Int → R) (ldc : Int) :
    syrkComplex w layout uplo Op.ConjTrans n k alpha A lda beta C ldc
      = Except.error Error.blasError := by
  unfold syrkComplex syrkOverload
  rw [syrkCheck_eq, if_neg]
  · rfl
  · rintro ⟨_, _, h, _⟩
    rcases h with h | h | h
    · exact absurd h (by decide)
    · exact absurd h (by decide)
    · exact absurd h.1 (by decide)

/-- C16 (as stated it fails): for a column-major call the real overloads forward the
transpose flag unchanged, so that the call with `ConjTrans` passes `'C'` to the native kernel
where the call with `Trans` passes `'T'`. -/
theorem syrkReal_conjTrans_forwards_C :
    (syrkReal 32 Layout.ColMajor Uplo.Lower Op.ConjTrans 1 1 (1 : Int) (fun _ => 0) 1 0
        (fun _ => 0) 1).map (fun c => c.trans_) = Except.ok 'C'
    ∧ (syrkReal 32 Layout.ColMajor Uplo.Lower Op.Trans 1 1 (1 : Int) (fun _ => 0) 1 0
        (fun _ => 0) 1).map (fun c => c.trans_) = Except.ok 'T' := by
  constructor
  · unfold syrkReal
    rw [syrkOverload_accept false 32 Layout.ColMajor Uplo.Lower Op.ConjTrans 1 1 (1 : Int) _ 1 0 _ 1
      (by decide) (fun _ => by decide)]
    rfl
  · unfold syrkReal
    rw [syrkOverload_accept false 32 Layout.ColMajor Uplo.Lower Op.Trans 1 1 (1 : Int) _ 1 0 _ 1
      (by decide) (fun _ => by decide)]
    rfl

/-- C16 (amended): for the `float` and `double` overloads of `syrk` and every choice of the
other arguments, the call with `trans = ConjTrans` is accepted or rejected exactly when the
call with `trans = Trans` is; when accepted, a row-major call forwards the same arguments as
the call with `Trans`, and a column-major call forwards the same arguments except for the
transpose flag, which is the one of `ConjTrans` (`'C'`) instead of the one of `Trans`. -/
theorem syrkReal_conjTrans {R : Type} (w : Nat) (layout : Layout) (uplo : Uplo) (n k : Int)
    (alpha : R) (A : Int → R) (lda : Int) (beta : R) (C : Int → R) (ldc : Int) :
    syrkReal w layout uplo Op.ConjTrans n k alpha A lda beta C ldc
      = (syrkReal w layout uplo Op.Trans n k alpha A lda beta C ldc).map
          (fun c => if layout = Layout.RowMajor then c
            else { c with trans_ := op2char Op.ConjTrans }) := by
  unfold syrkReal syrkOverload
  rw [syrkCheck_eq, syrkCheck_eq, syrkOverflowCheck_eq]
  have key : ∀ (p p' q : Prop) [Decidable p] [Decidable p'] [Decidable q]
      (r r' : SyrkNative R) (f : SyrkNative R → SyrkNative R), (p ↔ p') → f r' = r →
      ((if p then Except.ok () else Except.error Error.blasError : Except Error Unit) >>=
        fun _ => (if q then Except.ok () else Except.error Error.blasError :
          Except Error Unit) >>= fun _ => (pure r : Except Error (SyrkNative R)))
      = Except.map f
          ((if p' then Except.ok () else Except.error Error.blasError : Except Error Unit) >>=
            fun _ => (if q then Except.ok () else Except.error Error.blasError :
              Except Error Unit) >>= fun _ => (pure r' : Except Error (SyrkNative R))) := by
    intro p p' q _ _ _ r r' f hpp hf
    by_cases hp : p <;> by_cases hq : q <;>
      simp [hp, ← hpp, hq, bind, Except.bind, pure, Except.pure, Except.map, hf]
  refine key _ _ _ _ _ _ ?_ ?_
  · simp
  · cases layout <;> simp [rowMajorFlags]

/-- C17: `syrk` translates row-major calls by flag swapping only.  For every accepted call of
a precision overload (real or complex, native integer of `1 ≤ w ≤ 64` bits, arguments of type
`int64_t`): a `RowMajor` call passes the opposite triangle and the flag of `Trans` for
`NoTrans`, of `NoTrans` for `Trans` and `ConjTrans`; a `ColMajor` call passes `uplo` and
`trans` as they are; `n, k, alpha, A, lda, beta, C, ldc` are passed unchanged.  The flag
translation applied twice to a legal `uplo` and `trans ∈ {NoTrans, Trans}` gives the pair
back. -/
theorem syrk_flag_translation {R : Type} (complex : Bool) (w : Nat) (layout : Layout)
    (uplo : Uplo) (trans : Op) (n k : Int) (alpha : R) (A : Int → R) (lda : Int) (beta : R)
    (C : Int → R) (ldc : Int) (c : SyrkNative R) (hw1 : 1 ≤ w) (hw2 : w ≤ 64)
    (hn : isInt64 n) (hk : isInt64 k) (hlda : isInt64 lda) (hldc : isInt64 ldc)
    (h : syrkOverload complex w layout uplo trans n k alpha A lda beta C ldc = Except.ok c) :
    (layout = Layout.RowMajor →
        (uplo = Uplo.Lower → c.uplo_ = uplo2char Uplo.Upper)
        ∧ (uplo = Uplo.Upper → c.uplo_ = uplo2char Uplo.Lower)
        ∧ (trans = Op.NoTrans → c.trans_ = op2char Op.Trans)
        ∧ (trans = Op.Trans ∨ trans = Op.ConjTrans → c.trans_ = op2char Op.NoTrans))
    ∧ (layout = Layout.ColMajor → c.uplo_ = uplo2char uplo ∧ c.trans_ = op2char trans)
    ∧ c.n_ = n ∧ c.k_ = k ∧ c.alpha = alpha ∧ c.A = A ∧ c.lda_ = lda ∧ c.beta = beta
    ∧ c.C = C ∧ c.ldc_ = ldc
    ∧ (∀ (u : Uplo) (t : Op), (u = Uplo.Lower ∨ u = Uplo.Upper) →
        (t = Op.NoTrans ∨ t = Op.Trans) →
        rowMajorFlags (rowMajorFlags u t).1 (rowMajorFlags u t).2 = (u, t)) := by
  obtain ⟨⟨_, _, _, hn0, hk0, hlda0, hldc0⟩, hfit, rfl⟩ :=
    syrkOverload_ok complex w layout uplo trans n k alpha A lda beta C ldc c h
  have hlda1 : 0 ≤ lda := by
    split_ifs at hlda0 <;> omega
  have hldc1 : 0 ≤ ldc := by omega
  have en := toBlasInt_of_checked w n hw1 hw2 hn0 hn (fun hw => (hfit hw).1)
  have ek := toBlasInt_of_checked w k hw1 hw2 hk0 hk (fun hw => (hfit hw).2.1)
  have elda := toBlasInt_of_checked w lda hw1 hw2 hlda1 hlda (fun hw => (hfit hw).2.2.1)
  have eldc := toBlasInt_of_checked w ldc hw1 hw2 hldc1 hldc (fun hw => (hfit hw).2.2.2)
  refine ⟨?_, ?_, en, ek, rfl, rfl, elda, rfl, rfl, eldc, ?_⟩
  · intro hl
    subst hl
    refine ⟨?_, ?_, ?_, ?_⟩
    · intro hu; subst hu; rfl
    · intro hu; subst hu; rfl
    · intro ht; subst ht; rfl
    · intro ht; rcases ht with ht | ht <;> subst ht <;> rfl
  · intro hl
    subst hl
    exact ⟨rfl, rfl⟩
  · intro u t hu ht
    rcases hu with rfl | rfl <;> rcases ht with rfl | rfl <;> rfl

theorem syrk_flag_translation_witness :
    ∃ c : SyrkNative Int,
      syrkOverload true 32 Layout.RowMajor Uplo.Lower Op.NoTrans 2 3 (1 : Int) (fun e => e) 3 0
          (fun _ => 0) 2 = Except.ok c
      ∧ c.uplo_ = uplo2char Uplo.Upper ∧ c.trans_ = op2char Op.Trans ∧ c.n_ = 2 ∧ c.k_ = 3
      ∧ c.lda_ = 3 ∧ c.ldc_ = 2 := by
  have hacc := syrkOverload_accept true 32 Layout.RowMajor Uplo.Lower Op.NoTrans 2 3 (1 : Int)
    (fun e => e) 3 0 (fun _ => 0) 2 (by decide) (fun _ => by decide)
  have key := syrk_flag_translation true 32 Layout.RowMajor Uplo.Lower Op.NoTrans 2 3 (1 : Int)
    (fun e => e) 3 0 (fun _ => 0) 2 _ (by decide) (by decide)
    (by unfold isInt64; decide) (by unfold isInt64; decide) (by unfold isInt64; decide)
    (by unfold isInt64; decide) hacc
  exact ⟨_, hacc, (key.1 rfl).1 rfl, (key.1 rfl).2.2.1 rfl, key.2.2.1, key.2.2.2.1,
    key.2.2.2.2.2.2.1, key.2.2.2.2.2.2.2.2.2.1⟩

/-- C18: the generic `syrk` template is not implemented: for every input whatsoever it
throws `std::exception`; the result does not depend on the arguments, neither `A` nor `C`
enters it, and no argument is validated (also a call with legal arguments throws, and the
exception is not the `blas::Error` of a failed check). -/
theorem syrk_not_implemented {R : Type} (layout : Layout) (uplo : Uplo) (trans : Op)
    (n k : Int) (alpha : R) (A : Int → R) (lda : Int) (beta : R) (C : Int → R) (ldc : Int) :
    syrk layout uplo trans n k alpha A lda beta C ldc = Except.error Error.stdException
    ∧ ∀ (layout' : Layout) (uplo' : Uplo) (trans' : Op) (n' k' : Int) (alpha' : R)
        (A' : Int → R) (lda' : Int) (beta' : R) (C' : Int → R) (ldc' : Int),
        syrk layout' uplo' trans' n' k' alpha' A' lda' beta' C' ldc'
          = syrk layout uplo trans n k alpha A lda beta C ldc :=
  ⟨rfl, fun _ _ _ _ _ _ _ _ _ _ _ => rfl⟩

/-- C19 (the code departs from it): with a 32-bit `blas_int` the increment `incx = -2^63`, the
least `int64_t`, passes the validation of the complex `geru` overloads, because `std::abs`
of it is not positive, and is converted to the native increment `0`: the native kernel
receives a zero increment. -/
theorem geruComplex_zero_increment {R : Type} (alpha : R) (x y A : Int → R) :
    isInt64 (-2 ^ 63)
    ∧ stdAbs (-2 ^ 63) = -2 ^ 63
    ∧ toBlasInt 32 (-2 ^ 63) = 0
    ∧ geruComplex 32 Layout.ColMajor 1 1 alpha x (-2 ^ 63) y 1 A 1
      = Except.ok { m := 1, n := 1, alpha := alpha, x := x, incx := 0, y := y, incy := 1,
                    A := A, lda := 1 } := by
  have h1 : stdAbs (-2 ^ 63) = -2 ^ 63 := by decide
  have h2 : toBlasInt 32 (-2 ^ 63) = 0 := by decide
  have h3 : toBlasInt 32 1 = 1 := by decide
  have h4 : stdAbs 1 = 1 := by decide
  have hc : geruCheck Layout.ColMajor 1 1 (-2 ^ 63) 1 1 = Except.ok () :=
    geruCheck_ok Layout.ColMajor 1 1 (-2 ^ 63) 1 1 (Or.inl rfl) (by decide) (by decide)
      (by decide) (by decide) (by decide)
  have ho : geruOverflowCheck 32 1 1 (-2 ^ 63) 1 1 = Except.ok () := by
    unfold geruOverflowCheck
    rw [h1, h4]
    rfl
  refine ⟨by unfold isInt64; decide, h1, h2, ?_⟩
  unfold geruComplex
  rw [hc, ho, h2, h3]
  rfl

/-! ## The row-major translation of `syrk` against the native kernel -/

/-- An accumulation loop is the sum of its terms. -/
theorem forLoop_sum {R : Type} [CommRing R] (k : Int) (f : Int → R) :
    forLoop k (fun l acc => acc + f l) 0
      = Finset.sum (Finset.range k.toNat) (fun l => f (l : Int)) := by
  have key := forLoop_inv
    (fun (c : Nat) (acc : R) => acc = Finset.sum (Finset.range c) (fun l => f (l : Int)))
    k (fun l acc => acc + f l) 0 (by simp) ?_
  · exact key
  · intro c acc _ hacc
    rw [Finset.sum_range_succ, hacc]

theorem ite_update {R : Type} (p : Prop) [Decidable p] (C : Int → R) (e : Int) (v : R) :
    (if p then Function.update C e v else C) = Function.update C e (if p then v else C e) := by
  by_cases hp : p
  · simp [hp]
  · simp [hp]

/-- The native kernel on an `n`-by-`n` matrix with `n ≤ ldc`: the entries of the selected
triangle get the documented value, all other entries and everything outside the matrix
are untouched. -/
theorem syrkNative_spec {R : Type} [CommRing R] (c : SyrkNative R) (hld : c.n_ ≤ c.ldc_) :
    (∀ i j : Int, 0 ≤ i → i < c.n_ → 0 ≤ j → j < c.n_ →
      syrkNative c (i + j * c.ldc_)
        = if (if c.uplo_ = 'L' then j ≤ i else i ≤ j) then
            c.alpha * syrkDot (decide (c.trans_ = 'N')) c.k_ c.A c.lda_ i j
              + c.beta * c.C (i + j * c.ldc_)
          else c.C (i + j * c.ldc_))
    ∧ (∀ e : Int, (∀ i j : Int, 0 ≤ i → i < c.n_ → 0 ≤ j → j < c.n_ → e ≠ i + j * c.ldc_) →
      syrkNative c e = c.C e) := by
  obtain ⟨h1, h2⟩ := forLoop_update_block c.n_ c.n_ c.ldc_ 0
    (fun i j old => if (if c.uplo_ = 'L' then j ≤ i else i ≤ j) then
        c.alpha * syrkDot (decide (c.trans_ = 'N')) c.k_ c.A c.lda_ i j + c.beta * old
      else old) c.C hld
  have hform : syrkNative c
      = forLoop c.n_ (fun j b => forLoop c.n_ (fun i b =>
          Function.update b (0 + (i + j * c.ldc_))
            ((fun i j old => if (if c.uplo_ = 'L' then j ≤ i else i ≤ j) then
                c.alpha * syrkDot (decide (c.trans_ = 'N')) c.k_ c.A c.lda_ i j + c.beta * old
              else old) i j (b (0 + (i + j * c.ldc_))))) b) c.C := by
    unfold syrkNative
    simp only [ite_update, zero_add, decide_eq_true_eq, Bool.decide_eq_true]
  rw [hform]
  constructor
  · intro i j hi0 hi hj0 hj
    have := h1 i j hi0 hi hj0 hj
    rw [zero_add] at this
    exact this
  · intro e he
    exact h2 e (fun i j hi0 hi hj0 hj => by rw [zero_add]; exact he i j hi0 hi hj0 hj)

/-- The inner product of the native kernel for the flipped operation, at the swapped
position, is the inner product of the row-major operand: rows `i`, `j` of the row-major
`n`-by-`k` matrix for `NoTrans`, columns `i`, `j` of the row-major `k`-by-`n` matrix for
`Trans`. -/
theorem syrkDot_rowMajor {R : Type} [CommRing R] (trans : Op)
    (ht : trans = Op.NoTrans ∨ trans = Op.Trans) (k : Int) (A : Int → R) (lda i j : Int) :
    syrkDot (decide (op2char (rowMajorFlags Uplo.Lower trans).2 = 'N')) k A lda j i
      = Finset.sum (Finset.range k.toNat) (fun l =>
          if trans = Op.NoTrans then A (i * lda + (l : Int)) * A (j * lda + (l : Int))
          else A ((l : Int) * lda + i) * A ((l : Int) * lda + j)) := by
  unfold syrkDot
  rw [forLoop_sum]
  apply Finset.sum_congr rfl
  intro l _
  rcases ht with rfl | rfl
  · have e1 : (l : Int) + j * lda = j * lda + l := by ring
    have e2 : (l : Int) + i * lda = i * lda + l := by ring
    simp only [rowMajorFlags, op2char, if_true, e1, e2]
    simp [mul_comm]
  · have e1 : j + (l : Int) * lda = l * lda + j := by ring
    have e2 : i + (l : Int) * lda = l * lda + i := by ring
    simp only [rowMajorFlags, op2char, e1, e2]
    simp [mul_comm]

/-- C20: the row-major translation of `syrk` is mathematically correct.  With the native
column-major kernel as the reference, for every accepted `RowMajor` call of a precision
overload with `trans ∈ {NoTrans, Trans}` (native integer of `1 ≤ w ≤ 64` bits, arguments of
type `int64_t`), the native call that is issued, with swapped `uplo` and flipped `trans` on
the same buffers, gives every entry `(i, j)` of the requested triangle of the row-major
`C` (at `C[i*ldc + j]`) the value `alpha * Σ_l A(i,l)*A(j,l) + beta * C(i,j)` for `NoTrans`
(row-major `A`, entry `(i, l)` at `A[i*lda + l]`) and `alpha * Σ_l A(l,i)*A(l,j) + beta * C(i,j)`
for `Trans`; it leaves the opposite strict triangle, and everything outside the matrix,
unchanged. -/
theorem syrk_rowMajor_correct {R : Type} [CommRing R] (complex : Bool) (w : Nat) (uplo : Uplo)
    (trans : Op) (n k : Int) (alpha : R) (A : Int → R) (lda : Int) (beta : R) (C : Int → R)
    (ldc : Int) (c : SyrkNative R) (hw1 : 1 ≤ w) (hw2 : w ≤ 64)
    (hn : isInt64 n) (hk : isInt64 k) (hlda : isInt64 lda) (hldc : isInt64 ldc)
    (ht : trans = Op.NoTrans ∨ trans = Op.Trans)
    (h : syrkOverload complex w Layout.RowMajor uplo trans n k alpha A lda beta C ldc
      = Except.ok c) :
    (∀ i j : Int, 0 ≤ i → i < n → 0 ≤ j → j < n →
      ((if uplo = Uplo.Lower then j ≤ i else i ≤ j) →
        syrkNative c (i * ldc + j)
          = alpha * Finset.sum (Finset.range k.toNat) (fun l =>
              if trans = Op.NoTrans then A (i * lda + (l : Int)) * A (j * lda + (l : Int))
              else A ((l : Int) * lda + i) * A ((l : Int) * lda + j))
            + beta * C (i * ldc + j))
      ∧ (¬ (if uplo = Uplo.Lower then j ≤ i else i ≤ j) →
        syrkNative c (i * ldc + j) = C (i * ldc + j)))
    ∧ (∀ e : Int, (∀ i j : Int, 0 ≤ i → i < n → 0 ≤ j → j < n → e ≠ i * ldc + j) →
      syrkNative c e = C e) := by
  obtain ⟨⟨_, hu, _, hn0, hk0, hlda0, hldc0⟩, hfit, rfl⟩ :=
    syrkOverload_ok complex w Layout.RowMajor uplo trans n k alpha A lda beta C ldc c h
  have hlda1 : 0 ≤ lda := by
    split_ifs at hlda0 <;> omega
  have hldc1 : 0 ≤ ldc := by omega
  rw [toBlasInt_of_checked w n hw1 hw2 hn0 hn (fun hw => (hfit hw).1),
    toBlasInt_of_checked w k hw1 hw2 hk0 hk (fun hw => (hfit hw).2.1),
    toBlasInt_of_checked w lda hw1 hw2 hlda1 hlda (fun hw => (hfit hw).2.2.1),
    toBlasInt_of_checked w ldc hw1 hw2 hldc1 hldc (fun hw => (hfit hw).2.2.2)]
  simp only [if_true]
  obtain ⟨s1, s2⟩ := syrkNative_spec
    ({ uplo_ := uplo2char (rowMajorFlags uplo trans).1,
       trans_ := op2char (rowMajorFlags uplo trans).2,
       n_ := n, k_ := k, alpha := alpha, A := A, lda_ := lda, beta := beta, C := C,
       ldc_ := ldc } : SyrkNative R) hldc0
  simp only at s1 s2
  have hdot : ∀ i j : Int,
      syrkDot (decide (op2char (rowMajorFlags uplo trans).2 = 'N')) k A lda j i
        = Finset.sum (Finset.range k.toNat) (fun l =>
            if trans = Op.NoTrans then A (i * lda + (l : Int)) * A (j * lda + (l : Int))
            else A ((l : Int) * lda + i) * A ((l : Int) * lda + j)) :=
    fun i j => syrkDot_rowMajor trans ht k A lda i j
  have htri : ∀ i j : Int,
      (if uplo2char (rowMajorFlags uplo trans).1 = 'L' then i ≤ j else j ≤ i)
        ↔ (if uplo = Uplo.Lower then j ≤ i else i ≤ j) := by
    intro i j
    rcases hu with rfl | rfl <;> simp [rowMajorFlags, uplo2char]
  constructor
  · intro i j hi0 hi hj0 hj
    have hs := s1 j i hj0 hj hi0 hi
    rw [show j + i * ldc = i * ldc + j by ring, hdot i j] at hs
    constructor
    · intro htr
      rw [hs, if_pos ((htri i j).mpr htr)]
    · intro htr
      rw [hs, if_neg (fun hc => htr ((htri i j).mp hc))]
  · intro e he
    exact s2 e (fun i j hi0 hi hj0 hj heq => he j i hj0 hj hi0 hi (by rw [heq]; ring))

theorem syrk_rowMajor_correct_witness :
    ∃ c : SyrkNative Int,
      syrkOverload false 32 Layout.RowMajor Uplo.Lower Op.NoTrans 2 3 (2 : Int) (fun e => e + 1)
          3 5 (fun e => 7 * e) 2 = Except.ok c
      ∧ syrkNative c (1 * 2 + 0)
          = 2 * Finset.sum (Finset.range (3 : Int).toNat) (fun l =>
              if Op.NoTrans = Op.NoTrans
              then (fun e : Int => e + 1) (1 * 3 + (l : Int))
                * (fun e : Int => e + 1) (0 * 3 + (l : Int))
              else (fun e : Int => e + 1) ((l : Int) * 3 + 1)
                * (fun e : Int => e + 1) ((l : Int) * 3 + 0))
            + 5 * (fun e : Int => 7 * e) (1 * 2 + 0) := by
  have hacc := syrkOverload_accept false 32 Layout.RowMajor Uplo.Lower Op.NoTrans 2 3 (2 : Int)
    (fun e => e + 1) 3 5 (fun e => 7 * e) 2 (by decide) (fun _ => by decide)
  have key := syrk_rowMajor_correct false 32 Uplo.Lower Op.NoTrans 2 3 (2 : Int)
    (fun e => e + 1) 3 5 (fun e => 7 * e) 2 _ (by decide) (by decide)
    (by unfold isInt64; decide) (by unfold isInt64; decide) (by unfold isInt64; decide)
    (by unfold isInt64; decide) (Or.inl rfl) hacc
  exact ⟨_, hacc, (key.1 1 0 (by decide) (by decide) (by decide) (by decide)).1 (by decide)⟩

/-! ## The tiles stay inside the buffers -/

/-- C21: every tile product built by the Schur test stays inside the allocated buffers.  For a
tile size `k > 0`, `m` and `n` multiples of `k`, leading dimensions `lda ≥ m`, `ldb ≥ k`,
`ldc ≥ m` and every tile `(i, j)`, `0 ≤ i < mt = m/k`, `0 ≤ j < nt = n/k`, every element index
of the `k`-by-`k` A block (offset `i*k`, stride `lda`), B block (offset `j*k*ldb`, stride `ldb`)
and C block (offset `i*k + j*k*ldc`, stride `ldc`) is non-negative and less than `lda*k`,
`ldb*n` and `ldc*n` respectively; these bounds are the sizes `size_A`, `size_B`, `size_C` that
the tile geometry computes for its leading dimensions. -/
theorem schur_tiles_in_bounds (m n k lda ldb ldc : Int) (hk : 0 < k) (hm : k ∣ m) (hn : k ∣ n)
    (hlda : m ≤ lda) (hldb : k ≤ ldb) (hldc : m ≤ ldc) (i j a b : Int)
    (hi0 : 0 ≤ i) (hi : i < Int.tdiv m k) (hj0 : 0 ≤ j) (hj : j < Int.tdiv n k)
    (ha0 : 0 ≤ a) (ha : a < k) (hb0 : 0 ≤ b) (hb : b < k) :
    (0 ≤ blockIndex (tileOffsetA k i) lda a b ∧ blockIndex (tileOffsetA k i) lda a b < lda * k)
    ∧ (0 ≤ blockIndex (tileOffsetB k ldb j) ldb a b
        ∧ blockIndex (tileOffsetB k ldb j) ldb a b < ldb * n)
    ∧ (0 ≤ blockIndex (tileOffsetC k ldc i j) ldc a b
        ∧ blockIndex (tileOffsetC k ldc i j) ldc a b < ldc * n)
    ∧ (∀ (align : Int) (g : SchurGeometry), tileGeometry m n k align = some g →
        g.mt = Int.tdiv m k ∧ g.nt = Int.tdiv n k ∧ g.size_A = g.lda_ * k
        ∧ g.size_B = g.ldb_ * n ∧ g.size_C = g.ldc_ * n) := by
  have hk0 : k ≠ 0 := ne_of_gt hk
  have hgeo : ∀ (align : Int) (g : SchurGeometry), tileGeometry m n k align = some g →
      g.mt = Int.tdiv m k ∧ g.nt = Int.tdiv n k ∧ g.size_A = g.lda_ * k
      ∧ g.size_B = g.ldb_ * n ∧ g.size_C = g.ldc_ * n := by
    intro align g hg
    obtain ⟨g', hg', _, _, hmt, hnt, _, _, _, _, hA, hB, hC⟩ :=
      tileGeometry_some m n k align hk0
    have hgg : g' = g := Option.some.inj (hg'.symm.trans hg)
    subst hgg
    exact ⟨hmt, hnt, hA, hB, hC⟩
  obtain ⟨mt, rfl⟩ := hm
  obtain ⟨nt, rfl⟩ := hn
  rw [Int.mul_tdiv_cancel_left _ hk0] at hi hj
  -- rows and columns of the tile inside the matrix
  have hrow0 : 0 ≤ i * k + a := by nlinarith
  have hrow : i * k + a < k * mt := by nlinarith
  have hcol0 : 0 ≤ j * k + b := by nlinarith
  have hcol : j * k + b < k * nt := by nlinarith
  have hlda0 : 0 < lda := by omega
  have hldb0 : 0 < ldb := by omega
  have hldc0 : 0 < ldc := by omega
  simp only [blockIndex, tileOffsetA, tileOffsetB, tileOffsetC]
  refine ⟨⟨?_, ?_⟩, ⟨?_, ?_⟩, ⟨?_, ?_⟩, hgeo⟩
  · have : 0 ≤ b * lda := mul_nonneg hb0 hlda0.le
    omega
  · have : (b + 1) * lda ≤ k * lda := mul_le_mul_of_nonneg_right (by omega) hlda0.le
    nlinarith
  · have h1 : 0 ≤ (j * k + b) * ldb := mul_nonneg hcol0 hldb0.le
    nlinarith
  · have h1 : (j * k + b + 1) * ldb ≤ (k * nt) * ldb :=
      mul_le_mul_of_nonneg_right (by omega) hldb0.le
    nlinarith
  · have h1 : 0 ≤ (j * k + b) * ldc := mul_nonneg hcol0 hldc0.le
    nlinarith
  · have h1 : (j * k + b + 1) * ldc ≤ (k * nt) * ldc :=
      mul_le_mul_of_nonneg_right (by omega) hldc0.le
    nlinarith

theorem schur_tiles_in_bounds_witness :
    (0 ≤ blockIndex (tileOffsetA 2 1) 5 1 1 ∧ blockIndex (tileOffsetA 2 1) 5 1 1 < 5 * 2)
    ∧ (0 ≤ blockIndex (tileOffsetB 2 3 2) 3 1 1 ∧ blockIndex (tileOffsetB 2 3 2) 3 1 1 < 3 * 6)
    ∧ (0 ≤ blockIndex (tileOffsetC 2 4 1 2) 4 1 1
        ∧ blockIndex (tileOffsetC 2 4 1 2) 4 1 1 < 4 * 6) :=
  let h := schur_tiles_in_bounds 4 6 2 5 3 4 (by decide) (by decide) (by decide) (by decide)
    (by decide) (by decide) 1 2 1 1 (by decide) (by decide) (by decide) (by decide)
    (by decide) (by decide) (by decide) (by decide)
  ⟨h.1, h.2.1, h.2.2.1⟩

/-! ## Bounds on the rounding step and the geometry -/

theorem bitLen_lt_pow (fuel : Nat) : ∀ n : Nat, n ≤ fuel → n < 2 ^ bitLen fuel n := by
  induction fuel with
  | zero => intro n h; have : n = 0 := by omega
            subst this; simp [bitLen]
  | succ fuel ih =>
    intro n h
    by_cases hn : n = 0
    · subst hn; simp [bitLen]
    · simp only [bitLen, if_neg hn]
      have := ih (n / 2) (by omega)
      rw [pow_succ]
      omega

/-- Rounding a quotient of at least one to an integer changes it by a factor of two at
most. -/
theorem roundHalfEven_bounds (N D : Nat) (hD : 0 < D) (hDN : D ≤ N) :
    roundHalfEven N D * D ≤ 2 * N ∧ N ≤ 2 * (roundHalfEven N D * D) := by
  have hq : 1 ≤ N / D := (Nat.one_le_div_iff hD).mpr hDN
  have h1 := Nat.div_add_mod N D
  have h2 := Nat.mod_lt N hD
  have h3 : D * (N / D) = N / D * D := Nat.mul_comm _ _
  have h4 : D ≤ N / D * D := Nat.le_mul_of_pos_left D hq
  have hR : roundHalfEven N D = N / D ∨ roundHalfEven N D = N / D + 1 := by
    unfold roundHalfEven
    split_ifs <;> simp
  rcases hR with h | h <;> rw [h]
  · constructor <;> omega
  · rw [Nat.add_mul]
    constructor <;> omega

/-- The scaled quotient that `roundRat` rounds to an integer is at least one. -/
theorem roundRat_scaled (p : Nat) (hp : 2 ≤ p) (n den : Nat) (hn : 0 < n)
    (lg : Int) (hlg : lg ≤ (bitLen n n : Int) - (bitLen den den : Int)) :
    den * 2 ^ (lg - ((p : Int) - 1)).toNat ≤ n * 2 ^ (-(lg - ((p : Int) - 1))).toNat := by
  obtain ⟨ha1, ha2⟩ := bitLen_pow_le n n hn le_rfl
  have hb := bitLen_lt_pow den den le_rfl
  generalize bitLen n n = a at *
  generalize bitLen den den = b at *
  generalize he : lg - ((p : Int) - 1) = e
  have hea : e ≤ (a : Int) - b - 1 := by omega
  by_cases hpos : 0 ≤ e
  · have h1 : (-e).toNat = 0 := by omega
    rw [h1, pow_zero, Nat.mul_one]
    have h2 : b + e.toNat ≤ a - 1 := by omega
    calc den * 2 ^ e.toNat ≤ 2 ^ b * 2 ^ e.toNat := Nat.mul_le_mul_right _ hb.le
      _ = 2 ^ (b + e.toNat) := by rw [pow_add]
      _ ≤ 2 ^ (a - 1) := Nat.pow_le_pow_right (by decide) h2
      _ ≤ n := ha2
  · have h1 : e.toNat = 0 := by omega
    rw [h1, pow_zero, Nat.mul_one]
    have h2 : b ≤ (a - 1) + (-e).toNat := by omega
    calc den ≤ 2 ^ b := hb.le
      _ ≤ 2 ^ ((a - 1) + (-e).toNat) := Nat.pow_le_pow_right (by decide) h2
      _ = 2 ^ (a - 1) * 2 ^ (-e).toNat := by rw [pow_add]
      _ ≤ n * 2 ^ (-e).toNat := Nat.mul_le_mul_right _ ha2

theorem two_zpow_eq (e : Int) : (2 : ℚ) ^ e = (2 : ℚ) ^ e.toNat / (2 : ℚ) ^ (-e).toNat := by
  by_cases h : 0 ≤ e
  · have h1 : (-e).toNat = 0 := by omega
    rw [h1, pow_zero, div_one, ← zpow_natCast, Int.toNat_of_nonneg h]
  · have h1 : e.toNat = 0 := by omega
    have h2 : e = -((-e).toNat : Int) := by omega
    rw [h1, pow_zero, one_div, ← zpow_natCast, ← zpow_neg, ← h2]

/-- Rounding to a significand of at least two bits changes a positive rational by a factor
of two at most, and gives a positive significand. -/
theorem roundRat_val (p : Nat) (hp : 2 ≤ p) (num : Int) (hnum : 0 < num) (den : Nat)
    (hden : 0 < den) :
    0 < (roundRat p num den).mant
    ∧ Flt.val (roundRat p num den) ≤ 2 * ((num : ℚ) / den)
    ∧ (num : ℚ) / den ≤ 2 * Flt.val (roundRat p num den) := by
  obtain ⟨n, rfl⟩ := Int.eq_ofNat_of_zero_le hnum.le
  have hn : 0 < n := by exact_mod_cast hnum
  unfold Flt.val roundRat
  rw [if_neg (ne_of_gt hnum)]
  dsimp only
  rw [Int.natAbs_ofNat, Int.sign_eq_one_of_pos hnum, one_mul]
  generalize hlg : (if den * 2 ^ ((bitLen n n : Int) - (bitLen den den : Int)).toNat
      ≤ n * 2 ^ ((bitLen den den : Int) - (bitLen n n : Int)).toNat
      then (bitLen n n : Int) - (bitLen den den : Int)
      else (bitLen n n : Int) - (bitLen den den : Int) - 1) = lg
  have hlg' : lg ≤ (bitLen n n : Int) - (bitLen den den : Int) := by
    rw [← hlg]; split_ifs <;> omega
  have hDN := roundRat_scaled p hp n den hn lg hlg'
  generalize lg - ((p : Int) - 1) = e at hDN ⊢
  have hD : 0 < den * 2 ^ e.toNat := Nat.mul_pos hden (Nat.pow_pos (by decide))
  obtain ⟨b1, b2⟩ := roundHalfEven_bounds _ _ hD hDN
  generalize roundHalfEven (n * 2 ^ (-e).toNat) (den * 2 ^ e.toNat) = R at b1 b2 ⊢
  have hR : 0 < R := by
    rcases Nat.eq_zero_or_pos R with h | h
    · subst h; omega
    · exact h
  have c1 : (R : ℚ) * ((den : ℚ) * 2 ^ e.toNat) ≤ 2 * ((n : ℚ) * 2 ^ (-e).toNat) := by
    exact_mod_cast b1
  have c2 : (n : ℚ) * 2 ^ (-e).toNat ≤ 2 * ((R : ℚ) * ((den : ℚ) * 2 ^ e.toNat)) := by
    exact_mod_cast b2
  have hA : (0 : ℚ) < 2 ^ e.toNat := by positivity
  have hB : (0 : ℚ) < 2 ^ (-e).toNat := by positivity
  have hd : (0 : ℚ) < den := by exact_mod_cast hden
  refine ⟨by exact_mod_cast hR, ?_, ?_⟩
  · rw [two_zpow_eq e]
    push_cast
    rw [show (R : ℚ) * (2 ^ e.toNat / 2 ^ (-e).toNat) = ((R : ℚ) * 2 ^ e.toNat) / 2 ^ (-e).toNat
      by ring, show 2 * ((n : ℚ) / den) = (2 * (n : ℚ)) / den by ring, div_le_div_iff₀ hB hd]
    linarith
  · rw [two_zpow_eq e]
    push_cast
    rw [show 2 * ((R : ℚ) * (2 ^ e.toNat / 2 ^ (-e).toNat))
        = (2 * ((R : ℚ) * 2 ^ e.toNat)) / 2 ^ (-e).toNat by ring, div_le_div_iff₀ hd hB]
    linarith

theorem roundRat_zero (p : Nat) (den : Nat) : roundRat p 0 den = ⟨0, 0⟩ := by
  simp [roundRat]

theorem Flt.val_nonneg (x : Flt) (h : 0 ≤ x.mant) : 0 ≤ Flt.val x := by
  unfold Flt.val
  have : (0 : ℚ) ≤ x.mant := by exact_mod_cast h
  positivity

theorem Flt.val_pos (x : Flt) (h : 0 < x.mant) : 0 < Flt.val x := by
  unfold Flt.val
  have : (0 : ℚ) < x.mant := by exact_mod_cast h
  positivity

/-- The conversion of a non-negative integer: at most twice the integer, and for a positive
integer at least half of it. -/
theorem ofInt_val (p : Nat) (hp : 2 ≤ p) (z : Int) (hz : 0 ≤ z) :
    0 ≤ (Flt.ofInt p z).mant ∧ Flt.val (Flt.ofInt p z) ≤ 2 * (z : ℚ)
    ∧ (0 < z → 0 < (Flt.ofInt p z).mant ∧ (z : ℚ) ≤ 2 * Flt.val (Flt.ofInt p z)) := by
  rcases eq_or_lt_of_le hz with h | h
  · subst h
    simp [Flt.ofInt, roundRat_zero, Flt.val]
  · obtain ⟨h1, h2, h3⟩ := roundRat_val p hp z h 1 (by decide)
    simp only [Nat.cast_one, div_one] at h2 h3
    exact ⟨h1.le, h2, fun _ => ⟨h1, h3⟩⟩

/-- The quotient of a non-negative by a positive value: defined, non-negative, and at most
twice the exact quotient. -/
theorem div_val (p : Nat) (hp : 2 ≤ p) (x y : Flt) (hx : 0 ≤ x.mant) (hy : 0 < y.mant) :
    ∃ q : Flt, Flt.div p x y = some q ∧ 0 ≤ q.mant
      ∧ Flt.val q ≤ 2 * (Flt.val x / Flt.val y) := by
  unfold Flt.div
  rw [if_neg (ne_of_gt hy), Int.sign_eq_one_of_pos hy, mul_one]
  refine ⟨_, rfl, ?_⟩
  rcases eq_or_lt_of_le hx with h | h
  · have hx0 : x.mant = 0 := h.symm
    simp [hx0, roundRat_zero, Flt.val]
  · have hnum : 0 < x.mant * 2 ^ (x.exp - y.exp).toNat := by positivity
    have hden : 0 < y.mant.natAbs * 2 ^ (y.exp - x.exp).toNat :=
      Nat.mul_pos (Int.natAbs_pos.mpr (ne_of_gt hy)) (Nat.pow_pos (by decide))
    obtain ⟨h1, h2, _⟩ := roundRat_val p hp _ hnum _ hden
    refine ⟨h1.le, le_trans h2 (le_of_eq ?_)⟩
    congr 1
    unfold Flt.val
    have hyq : (0 : ℚ) < y.mant := by exact_mod_cast hy
    have habs : ((y.mant.natAbs : Nat) : ℚ) = (y.mant : ℚ) := by
      rw [Nat.cast_natAbs, abs_of_pos hy]
    have hexp : y.exp - x.exp = -(x.exp - y.exp) := by ring
    have hz : (2 : ℚ) ^ x.exp / 2 ^ y.exp = 2 ^ (x.exp - y.exp) := by
      rw [zpow_sub₀ (by norm_num)]
    rw [hexp]
    push_cast
    rw [habs, show (x.mant : ℚ) * 2 ^ x.exp / ((y.mant : ℚ) * 2 ^ y.exp)
      = (x.mant : ℚ) / y.mant * ((2 : ℚ) ^ x.exp / 2 ^ y.exp) by
        field_simp, hz, two_zpow_eq (x.exp - y.exp)]
    field_simp

/-- The floor of a non-negative value: non-negative and not above the value. -/
theorem floor_val (x : Flt) (hx : 0 ≤ x.mant) :
    0 ≤ (Flt.floor x).mant ∧ Flt.val (Flt.floor x) ≤ Flt.val x := by
  unfold Flt.floor
  by_cases h : 0 ≤ x.exp
  · rw [if_pos h]; exact ⟨hx, le_rfl⟩
  · rw [if_neg h]
    have hpow : (0 : Int) < 2 ^ (-x.exp).toNat := by positivity
    refine ⟨Int.ediv_nonneg hx hpow.le, ?_⟩
    unfold Flt.val
    simp only [zpow_zero, mul_one]
    have h1 : x.mant / 2 ^ (-x.exp).toNat * 2 ^ (-x.exp).toNat ≤ x.mant :=
      Int.ediv_mul_le _ (ne_of_gt hpow)
    have h2 : ((x.mant / 2 ^ (-x.exp).toNat : Int) : ℚ) * 2 ^ (-x.exp).toNat ≤ x.mant := by
      exact_mod_cast h1
    have h3 : x.exp.toNat = 0 := by omega
    rw [two_zpow_eq x.exp, h3, pow_zero, one_div, ← div_eq_mul_inv, le_div_iff₀ (by positivity)]
    exact h2

/-- The product of non-negative values: non-negative and at most twice the exact product. -/
theorem mul_val (p : Nat) (hp : 2 ≤ p) (x y : Flt) (hx : 0 ≤ x.mant) (hy : 0 ≤ y.mant) :
    0 ≤ (Flt.mul p x y).mant ∧ Flt.val (Flt.mul p x y) ≤ 2 * (Flt.val x * Flt.val y) := by
  have hxy : 0 ≤ x.mant * y.mant := mul_nonneg hx hy
  obtain ⟨h1, h2, _⟩ := ofInt_val p hp (x.mant * y.mant) hxy
  unfold Flt.ofInt at h1 h2
  refine ⟨h1, ?_⟩
  unfold Flt.val at h2 ⊢
  unfold Flt.mul
  simp only
  rw [zpow_add₀ (by norm_num), zpow_add₀ (by norm_num)]
  have e1 : (0 : ℚ) < 2 ^ x.exp := by positivity
  have e2 : (0 : ℚ) < 2 ^ y.exp := by positivity
  have e3 := mul_le_mul_of_nonneg_right h2 (mul_pos e1 e2).le
  push_cast at e3
  linarith

/-- The conversion of a non-negative value to an integer: non-negative and not above the
value. -/
theorem toInt_val (x : Flt) (hx : 0 ≤ x.mant) :
    0 ≤ Flt.toInt x ∧ ((Flt.toInt x : Int) : ℚ) ≤ Flt.val x := by
  unfold Flt.toInt
  by_cases h : 0 ≤ x.exp
  · rw [if_pos h]
    refine ⟨by positivity, le_of_eq ?_⟩
    unfold Flt.val
    push_cast
    rw [← zpow_natCast, Int.toNat_of_nonneg h]
  · rw [if_neg h]
    have hpow : (0 : Int) < 2 ^ (-x.exp).toNat := by positivity
    rw [Int.tdiv_eq_ediv hx hpow.le]
    have := floor_val x hx
    unfold Flt.floor at this
    rw [if_neg h] at this
    refine ⟨this.1, ?_⟩
    have h2 := this.2
    unfold Flt.val at h2 ⊢
    simpa using h2

/-- The rounding step on a non-negative dimension and a positive tile size produces a
non-negative value that is at most 32 times the dimension: each of the roundings of the
floating-point computation changes its operand by a factor of two at most. -/
theorem roundToTile_bounds (prec : Nat) (hp : 2 ≤ prec) (m k : Int) (hm : 0 ≤ m) (hk : 0 < k) :
    ∃ m_ : Int, roundToTile prec m k = some m_ ∧ 0 ≤ m_ ∧ m_ ≤ 32 * m := by
  obtain ⟨hx0, hxv, _⟩ := ofInt_val 24 (by decide) m hm
  obtain ⟨_, _, hy'⟩ := ofInt_val 24 (by decide) k hk.le
  obtain ⟨hy, hyv⟩ := hy' hk
  obtain ⟨hyk0, hykv, _⟩ := ofInt_val prec hp k hk.le
  obtain ⟨q, hq, hq0, hqv⟩ := div_val 24 (by decide) _ _ hx0 hy
  obtain ⟨hf0, hfv⟩ := floor_val q hq0
  obtain ⟨hp0, hpv⟩ := mul_val prec hp _ _ hf0 hyk0
  obtain ⟨hr0, hrv⟩ := toInt_val _ hp0
  refine ⟨_, by simp only [roundToTile, hq, Option.map_some'], hr0, ?_⟩
  have hkq : (0 : ℚ) < k := by exact_mod_cast hk
  have hmq : (0 : ℚ) ≤ m := by exact_mod_cast hm
  have hyp : 0 < Flt.val (Flt.ofInt 24 k) := Flt.val_pos _ hy
  have hfnn : 0 ≤ Flt.val (Flt.floor q) := Flt.val_nonneg _ hf0
  have hqnn : 0 ≤ Flt.val q := Flt.val_nonneg _ hq0
  have hxnn : 0 ≤ Flt.val (Flt.ofInt 24 m) := Flt.val_nonneg _ hx0
  -- the quotient is at most 4 m / k
  have h1 : Flt.val (Flt.ofInt 24 m) / Flt.val (Flt.ofInt 24 k) ≤ 4 * (m : ℚ) / k := by
    rw [div_le_div_iff₀ hyp hkq]
    nlinarith
  have h2 : Flt.val (Flt.floor q) ≤ 8 * (m : ℚ) / k := by
    calc Flt.val (Flt.floor q) ≤ Flt.val q := hfv
      _ ≤ 2 * (Flt.val (Flt.ofInt 24 m) / Flt.val (Flt.ofInt 24 k)) := hqv
      _ ≤ 2 * (4 * (m : ℚ) / k) := by linarith
      _ = 8 * (m : ℚ) / k := by ring
  have h3 : Flt.val (Flt.floor q) * Flt.val (Flt.ofInt prec k) ≤ 16 * (m : ℚ) := by
    calc Flt.val (Flt.floor q) * Flt.val (Flt.ofInt prec k)
        ≤ (8 * (m : ℚ) / k) * (2 * (k : ℚ)) :=
          mul_le_mul h2 hykv (Flt.val_nonneg _ hyk0) (by positivity)
      _ = 16 * (m : ℚ) := by field_simp; ring
  have h4 : ((Flt.toInt (Flt.mul prec (Flt.floor q) (Flt.ofInt prec k)) : Int) : ℚ)
      ≤ 32 * (m : ℚ) := by linarith
  exact_mod_cast h4

theorem roundup_le (x y : Int) (hx : 0 ≤ x) (hy : 0 < y) : roundup x y ≤ x + y - 1 := by
  unfold roundup
  rw [Int.tdiv_eq_ediv (by omega) hy.le]
  exact Int.ediv_mul_le _ (ne_of_gt hy)

theorem inSizeRange_mul (a b A B : Int) (ha : 0 ≤ a) (hb : 0 ≤ b) (haA : a ≤ A) (hbB : b ≤ B)
    (hAB : A * B < 2 ^ 63) : inSizeRange (a * b) :=
  ⟨mul_nonneg ha hb, lt_of_le_of_lt (mul_le_mul haA hbB hb (le_trans ha haA)) hAB⟩

/-- C7 (amended): for every tile size `k > 0` and all dimensions `m, n ≥ 0`, divisible by `k`
or not (with `m`, `n`, `k` and the alignment below `2^24` and the alignment positive), the
tile geometry computation reports no precondition violation: it returns a geometry, in
which the values `m_`, `n_` of the rounding step stand in the place of `m` and `n` and the
grid is `mt = m_/k`, `nt = n_/k` with batch count `mt*nt`.  In this range every value of the
geometry is non-negative and below `2^63`, so that no conversion and no product of the
computation leaves the range of `int64_t` or `size_t`. -/
theorem schurGeometry_total (prec : Nat) (hp : prec = 24 ∨ prec = 53) (m n k align : Int)
    (hk : 0 < k) (hk' : k < 2 ^ 24) (hm : 0 ≤ m) (hm' : m < 2 ^ 24) (hn : 0 ≤ n)
    (hn' : n < 2 ^ 24) (ha : 0 < align) (ha' : align < 2 ^ 24) :
    ∃ g : SchurGeometry, schurGeometry prec m n k align = some g
      ∧ roundToTile prec m k = some g.m_ ∧ roundToTile prec n k = some g.n_
      ∧ g.mt = Int.tdiv g.m_ k ∧ g.nt = Int.tdiv g.n_ k ∧ g.batch = g.mt * g.nt
      ∧ inSizeRange g.m_ ∧ inSizeRange g.n_ ∧ inSizeRange g.mt ∧ inSizeRange g.nt
      ∧ inSizeRange g.batch ∧ inSizeRange g.lda_ ∧ inSizeRange g.ldb_ ∧ inSizeRange g.ldc_
      ∧ inSizeRange g.size_A ∧ inSizeRange g.size_B ∧ inSizeRange g.size_C := by
  have hp2 : 2 ≤ prec := by rcases hp with rfl | rfl <;> decide
  obtain ⟨m_, hm_, hm0, hmb⟩ := roundToTile_bounds prec hp2 m k hm hk
  obtain ⟨n_, hn_, hn0, hnb⟩ := roundToTile_bounds prec hp2 n k hn hk
  obtain ⟨g, hg, hgm, hgn, hmt, hnt, hb, hlda, hldb, hldc, hA, hB, hC⟩ :=
    tileGeometry_some m_ n_ k align (ne_of_gt hk)
  norm_num at hk' hm' hn' ha'
  have hM : m_ ≤ 536870912 := by omega
  have hN : n_ ≤ 536870912 := by omega
  have emt : g.mt = m_ / k := by rw [hmt, Int.tdiv_eq_ediv hm0 hk.le]
  have ent : g.nt = n_ / k := by rw [hnt, Int.tdiv_eq_ediv hn0 hk.le]
  have hmt0 : 0 ≤ g.mt := by rw [emt]; exact Int.ediv_nonneg hm0 hk.le
  have hnt0 : 0 ≤ g.nt := by rw [ent]; exact Int.ediv_nonneg hn0 hk.le
  have hmtM : g.mt ≤ 536870912 := by
    rw [emt]; exact le_trans (Int.ediv_le_self _ hm0) hM
  have hntN : g.nt ≤ 536870912 := by
    rw [ent]; exact le_trans (Int.ediv_le_self _ hn0) hN
  have lda0 : 0 ≤ g.lda_ := by rw [hlda]; exact le_trans hm0 (le_roundup _ _ hm0 ha)
  have ldaM : g.lda_ ≤ 553648128 := by
    rw [hlda]; have := roundup_le m_ align hm0 ha; omega
  have ldb0 : 0 ≤ g.ldb_ := by rw [hldb]; exact le_trans hk.le (le_roundup _ _ hk.le ha)
  have ldbM : g.ldb_ ≤ 33554432 := by
    rw [hldb]; have := roundup_le k align hk.le ha; omega
  have ldc0 : 0 ≤ g.ldc_ := by rw [hldc]; exact le_trans hm0 (le_roundup _ _ hm0 ha)
  have ldcM : g.ldc_ ≤ 553648128 := by
    rw [hldc]; have := roundup_le m_ align hm0 ha; omega
  refine ⟨g, by simp [schurGeometry, hm_, hn_, hg], by rw [hm_, hgm], by rw [hn_, hgn],
    by rw [hmt, hgm], by rw [hnt, hgn], hb, ?_, ?_, ⟨hmt0, by omega⟩, ⟨hnt0, by omega⟩, ?_,
    ⟨lda0, by omega⟩, ⟨ldb0, by omega⟩, ⟨ldc0, by omega⟩, ?_, ?_, ?_⟩
  · rw [hgm]; exact ⟨hm0, by omega⟩
  · rw [hgn]; exact ⟨hn0, by omega⟩
  · rw [hb]; exact inSizeRange_mul _ _ _ _ hmt0 hnt0 hmtM hntN (by norm_num)
  · rw [hA]; exact inSizeRange_mul _ _ _ 16777216 lda0 hk.le ldaM (by omega) (by norm_num)
  · rw [hB]; exact inSizeRange_mul _ _ _ _ ldb0 hn0 ldbM hN (by norm_num)
  · rw [hC]; exact inSizeRange_mul _ _ _ _ ldc0 hn0 ldcM hN (by norm_num)

theorem schurGeometry_total_witness :
    ∃ g : SchurGeometry, schurGeometry 24 5 4 2 1 = some g
      ∧ roundToTile 24 5 2 = some g.m_ ∧ roundToTile 24 4 2 = some g.n_
      ∧ g.mt = Int.tdiv g.m_ 2 ∧ g.nt = Int.tdiv g.n_ 2 ∧ g.batch = g.mt * g.nt
      ∧ inSizeRange g.batch := by
  obtain ⟨g, h1, h2, h3, h4, h5, h6, _, _, _, _, h7, _⟩ :=
    schurGeometry_total 24 (Or.inl rfl) 5 4 2 1 (by decide) (by decide) (by decide) (by decide)
      (by decide) (by decide) (by decide) (by decide)
  exact ⟨g, h1, h2, h3, h4, h5, h6, h7⟩

end blas
